import Mathlib

/-!
# Verification of the wormhole-mapping route service

A shallow embedding of `script.py` (the Flask route service of the
`wormhole-mapping` repository) together with proofs about it.

Modelling conventions:
* Python floats are modelled as exact rationals (`ℚ`); the only float
  operation whose exactness matters, the `math.sqrt` inside `ly_dist`,
  is eliminated by comparing squared distances (see `ly_dist_le`).
* Python `datetime` values are modelled as integers (seconds); a
  `timedelta(hours=h)` is `h * 3600` seconds.
* A Python `frozenset([a, b])` dictionary key is modelled as the ordered
  pair `(a, b)` as constructed, compared with the symmetric equality
  `pairEq` (so `(a, b)` and `(b, a)` are the same key, exactly as two
  equal frozensets are).
* `networkx.Graph` is modelled by `Graph` below: a node list and an
  (unordered, duplicate-free by construction) edge list.  `remove_edge`
  keeps the endpoint nodes in the graph, as networkx does.
* The `heapq` priority queue is modelled as a plain list from which
  `popMin` extracts the least element under the full Python tuple
  ordering `entryLt` (cost, then cynos_used, then system name, then
  path); since that ordering is total, the popped value is exactly the
  value `heappop` returns.
-/

namespace Wormhole

/-! ## Static data (`mapSolarSystems.csv`): one row of `system_meta` -/

/-- One parsed row of `mapSolarSystems.csv`, i.e. one entry of the
`system_meta` dict (plus the name/id correspondence recorded in
`name_to_id` / `id_to_name`).  The coordinates are modelled as integer
meter values (the only use of a coordinate is the squared-distance
comparison in `ly_dist_le` below, where sub-meter fractions are
irrelevant); the security status is an exact rational. -/
structure SystemRow where
  sid : ℕ
  name : String
  x : ℤ
  y : ℤ
  z : ℤ
  security : ℚ
  regionID : ℤ
deriving DecidableEq, Repr

/-- `id_to_name.get(sid)`: the dict is built by iterating the rows, later
rows overwriting earlier ones, hence the reversed search. -/
def id_to_name (systems : List SystemRow) (sid : ℕ) : Option String :=
  (systems.reverse.find? (fun r => r.sid = sid)).map (·.name)

/-- `system_meta[name_to_id[n]]`: row lookup by name (later rows win). -/
def system_meta_of (systems : List SystemRow) (n : String) : Option SystemRow :=
  systems.reverse.find? (fun r => r.name = n)

/-! ## Unordered pairs (`frozenset([a, b])`) -/

/-- A `frozenset([a, b])` key, kept in construction order. -/
abbrev Pair := String × String

/-- Equality of two-element frozensets. -/
def pairEq (p q : Pair) : Bool :=
  (p.1 == q.1 && p.2 == q.2) || (p.1 == q.2 && p.2 == q.1)

/-! ## The shared `networkx.Graph` (`gate_graph`) -/

/-- The mutable shared graph.  `nodes` accumulates every endpoint ever
added by `add_edge`; `remove_edge` drops an edge but, as in networkx,
never a node. -/
structure Graph where
  nodes : List String
  edges : List Pair
deriving DecidableEq, Repr

def Graph.empty : Graph := ⟨[], []⟩

/-- `gate_graph.has_edge(a, b)`. -/
def Graph.hasEdge (g : Graph) (a b : String) : Bool :=
  g.edges.any (fun e => pairEq e (a, b))

/-- `gate_graph.add_edge(a, b)`: inserts missing endpoints into the node
set and the edge if it is not already present. -/
def Graph.add_edge (g : Graph) (a b : String) : Graph :=
  let ns1 := if a ∈ g.nodes then g.nodes else g.nodes ++ [a]
  let ns2 := if b ∈ ns1 then ns1 else ns1 ++ [b]
  { nodes := ns2,
    edges := if g.hasEdge a b then g.edges else g.edges ++ [(a, b)] }

/-- `gate_graph.remove_edge(a, b)` (the callers always guard it with
`has_edge`): removes the edge in either orientation, keeps the nodes. -/
def Graph.remove_edge (g : Graph) (a b : String) : Graph :=
  { g with edges := g.edges.filter (fun e => !pairEq e (a, b)) }

/-- `gate_graph.neighbors(u)`. -/
def Graph.neighbors (g : Graph) (u : String) : List String :=
  g.edges.filterMap (fun e =>
    if e.1 = u then some e.2 else if e.2 = u then some e.1 else none)

/-! ## Dynamic links (`wormhole_links` values) -/

/-- One wormhole-link record (a value of the `wormhole_links` dict /
one entry of `wormhole.json`).  Only the fields some control flow reads
are kept; the remaining free-form metadata fields of the dicts
(`wh_type`, `max_ship_size`, `age`, …) are never consulted and are
omitted.  `added_at` is present on `source="custom"` records,
`expires_at` on `source="evescout"` records. -/
structure Link where
  a : String
  b : String
  sig_a : Option String
  sig_b : Option String
  source : String
  added_at : Option ℤ
  expires_at : Option ℤ
  priv : Bool            -- the "private" field of the dict
deriving DecidableEq, Repr

/-- `wormhole_links.get(p)`. -/
def wlLookup (wl : List (Pair × Link)) (p : Pair) : Option Link :=
  (wl.find? (fun e => pairEq e.1 p)).map (·.2)

/-- `p in wormhole_links`. -/
def wlHasKey (wl : List (Pair × Link)) (p : Pair) : Bool :=
  wl.any (fun e => pairEq e.1 p)

/-- `wormhole_links[p] = l`: dict assignment replaces the value at an
equal key in place (keeping the original key object) and otherwise
appends at the end, exactly as an insertion-ordered Python dict. -/
def wlInsert (wl : List (Pair × Link)) (p : Pair) (l : Link) : List (Pair × Link) :=
  if wlHasKey wl p then wl.map (fun e => if pairEq e.1 p then (e.1, l) else e)
  else wl ++ [(p, l)]

/-- Well-formedness of the store, automatic for a Python dict: no two
entries carry the same (frozenset) key. -/
def wlWf (wl : List (Pair × Link)) : Prop :=
  wl.Pairwise (fun e1 e2 => pairEq e1.1 e2.1 = false)

/-! ## The module-level mutable state of `script.py` -/

/-- The module-level globals: `system_meta`/`name_to_id`/`id_to_name`
(summarised by `systems`), `gate_graph` and `wormhole_links`. -/
structure MapState where
  systems : List SystemRow
  gate_graph : Graph
  wormhole_links : List (Pair × Link)
deriving DecidableEq, Repr

/-- The keys of `name_to_id`. -/
def sdeNames (st : MapState) : List String := st.systems.map (·.name)

/-- `list(wormhole_links.values())`, the document written to
`wormhole.json` by every persisting operation. -/
def savedLinks (st : MapState) : List Link := st.wormhole_links.map (·.2)

/-! ## `load_sde` -/

/-- The jump-row loop of `load_sde`: a row is added as an edge only when
both ids resolve to (truthy) names and neither side is "Zarzakh". -/
def load_sde_graph (systems : List SystemRow) (jumps : List (ℕ × ℕ)) : Graph :=
  jumps.foldl (fun g jump =>
    match id_to_name systems jump.1, id_to_name systems jump.2 with
    | some a, some b =>
      if a ≠ "" ∧ b ≠ "" ∧ a ≠ "Zarzakh" ∧ b ≠ "Zarzakh" then g.add_edge a b else g
    | _, _ => g) Graph.empty

/-! ## Constants -/

def LY_CONVERSION : ℤ := 9460700000000000   -- 9.4607e15, an exact integer
def DEFAULT_CYNO_RANGE : ℚ := 6.0
def DEFAULT_MAX_CYNOS : ℚ := 6.0            -- a float in the source

/-- The literal `0.4` of `get_valid_cyno_candidates`, written in reduced
form `2/5` so that it is a normal-form rational (see
`CYNO_SECURITY_MAX_eq` below). -/
def CYNO_SECURITY_MAX : ℚ := ⟨2, 5, by norm_num, by norm_num⟩

/-! ## `ly_dist` and the cyno candidates -/

/-- The squared coordinate distance in meters², the radicand of
`ly_dist` before the `/ LY_CONVERSION` scaling. -/
def dist_sq_m (a b : SystemRow) : ℤ :=
  (a.x - b.x) ^ 2 + (a.y - b.y) ^ 2 + (a.z - b.z) ^ 2

/-- The call site `ly_dist(a, b) <= max_ly` of `build_route`.  `ly_dist`
divides each coordinate delta by `LY_CONVERSION` and returns the square
root of the sum of squares, i.e. `sqrt(S)/L` with `S = dist_sq_m a b`
and `L = LY_CONVERSION`.  Over the reals, for `r = num/den` with
`den > 0`:  `sqrt(S)/L ≤ r  ⟺  0 ≤ r ∧ S·den² ≤ num²·L²`.  The integer
comparison on the right is the exact embedding of the float
comparison. -/
def ly_dist_le (a b : SystemRow) (r : ℚ) : Bool :=
  decide (0 ≤ r) &&
    decide (dist_sq_m a b * (r.den : ℤ) ^ 2 ≤ r.num ^ 2 * LY_CONVERSION ^ 2)

/-- `get_valid_cyno_candidates(bridge_type)` (`CYNO_SECURITY_MAX` is the
source's literal `0.4`). -/
def get_valid_cyno_candidates (st : MapState) (bridge_type : String) : List String :=
  if bridge_type = "none" then []
  else (st.systems.filter (fun r => decide (r.security ≤ CYNO_SECURITY_MAX))).map (·.name)

/-! ## The search (`build_route`) -/

/-- A path element of the search, the tuple `(kind, system)` with kind
one of "start", "gate", "wormhole", "cyno". -/
abbrev Step := String × String

/-- One heap element, the tuple
`(total_cost, cynos_used, current_system, path_list)`. -/
structure Entry where
  cost : ℕ
  cynos_used : ℕ
  current : String
  path : List Step
deriving DecidableEq, Repr

/-- Python `<` on the characters of two strings: lexicographic by code
point, a strict prefix is smaller.  (Written out structurally so that it
evaluates; Lean's own `String.lt` is the same ordering.) -/
def charListLt : List Char → List Char → Bool
  | _, [] => false
  | [], _ :: _ => true
  | c :: cs, d :: ds =>
    decide (c.val < d.val) || (c == d && charListLt cs ds)

/-- Python `<` on strings (code-point lexicographic). -/
def strLtB (s t : String) : Bool := charListLt s.data t.data

/-- Python `<` on the `(kind, system)` step tuples. -/
def stepLt (x y : Step) : Bool :=
  strLtB x.1 y.1 || (x.1 == y.1 && strLtB x.2 y.2)

/-- Python `<` on path lists (lexicographic, a strict prefix is
smaller). -/
def pathLt : List Step → List Step → Bool
  | [], [] => false
  | [], _ :: _ => true
  | _ :: _, [] => false
  | x :: xs, y :: ys => stepLt x y || (x == y && pathLt xs ys)

/-- Python `<` on the heap tuples: cost, then cynos_used, then current
system, then path. -/
def entryLt (x y : Entry) : Bool :=
  decide (x.cost < y.cost) ||
    (x.cost == y.cost &&
      (decide (x.cynos_used < y.cynos_used) ||
        (x.cynos_used == y.cynos_used &&
          (strLtB x.current y.current ||
            (x.current == y.current && pathLt x.path y.path)))))

/-- `heappop`: the least heap element under the total order `entryLt`,
together with the remaining heap. -/
def popMin : List Entry → Option (Entry × List Entry)
  | [] => none
  | e :: es =>
    let m := es.foldl (fun acc x => if entryLt x acc then x else acc) e
    some (m, (e :: es).erase m)

/-- A returned path element, the dict `{"type": …, "system": …}` with an
`"info"` entry on wormhole steps. -/
structure StepOut where
  type : String
  system : String
  info : Option Link
deriving DecidableEq, Repr

/-- The post-processing of the winning path inside `build_route`: each
tuple becomes a dict, and a "wormhole" step gets
`wormhole_links.get(frozenset([prev_system, system]), {})` attached
(`{}`/absent modelled as `none`; the first step has no predecessor). -/
def convertPath (wl : List (Pair × Link)) : Option String → List Step → List StepOut
  | _, [] => []
  | prev, (t, s) :: rest =>
    (if t = "wormhole" then
      { type := "wormhole", system := s,
        info := prev.bind (fun p => wlLookup wl (p, s)) }
     else { type := t, system := s, info := none }) :: convertPath wl (some s) rest

/-- The result of `build_route`: an error record
(`[{"error": …}]`), a converted path, or `None`. -/
inductive RouteResult where
  | error (msg : String)
  | path (steps : List StepOut)
  | noPath
deriving DecidableEq, Repr

/-- The `# Gate and wormhole neighbors` block of the loop: one push per
composite-graph neighbour, tagged "wormhole" when the traversed pair is
currently a dynamic link and "gate" otherwise. -/
def gatePushes (g : Graph) (wl : List (Pair × Link)) (e : Entry) : List Entry :=
  (g.neighbors e.current).map (fun n =>
    if wlHasKey wl (e.current, n) then
      { cost := e.cost + 1, cynos_used := e.cynos_used, current := n,
        path := e.path ++ [("wormhole", n)] }
    else
      { cost := e.cost + 1, cynos_used := e.cynos_used, current := n,
        path := e.path ++ [("gate", n)] })

/-- The `# Cyno jumps if allowed` block of the loop, with `visited`
already containing the state being expanded (the source adds the popped
state to the visited set before expanding it). -/
def cynoPushes (st : MapState) (cynos : List String) (max_ly : ℚ) (max_cynos : ℤ)
    (visited : List (String × ℕ)) (e : Entry) : List Entry :=
  if e.current ∈ cynos ∧ (e.cynos_used : ℤ) < max_cynos then
    cynos.filterMap (fun target =>
      if target = e.current ∨ (target, e.cynos_used + 1) ∈ visited then none
      else
        match system_meta_of st.systems e.current, system_meta_of st.systems target with
        | some mc, some mt =>
          if ly_dist_le mc mt max_ly then
            some { cost := e.cost + 1, cynos_used := e.cynos_used + 1,
                   current := target, path := e.path ++ [("cyno", target)] }
          else none
        | _, _ => none)   -- unreachable: cynos are filtered to SDE members
  else []

/-- The `while heap:` loop of `build_route`.  The recursion is paced by
a fuel counter; `build_route` supplies `routeFuel`, which is proved
sufficient whenever the answer matters (the loop finalises each
`(system, cynos_used)` state at most once, so the real iteration count
is bounded). -/
def routeLoop (st : MapState) (cynos : List String) (max_ly : ℚ) (max_cynos : ℤ)
    (endSys : String) :
    ℕ → List (String × ℕ) → List Entry → Option (List Step)
  | 0, _, _ => none
  | fuel + 1, visited, heap =>
    match popMin heap with
    | none => none
    | some (e, rest) =>
      if (e.current, e.cynos_used) ∈ visited then
        routeLoop st cynos max_ly max_cynos endSys fuel visited rest
      else
        let visited' := (e.current, e.cynos_used) :: visited
        if e.current = endSys then some e.path
        else
          routeLoop st cynos max_ly max_cynos endSys fuel visited'
            (rest ++ gatePushes st.gate_graph st.wormhole_links e ++
              cynoPushes st cynos max_ly max_cynos visited' e)

/-- Every system that can ever appear as the current node of a heap
entry: the seeded start node, graph nodes, edge endpoints and cyno
candidates. -/
def nodeUniv (g : Graph) (cynos : List String) (start : String) : List String :=
  start :: (g.nodes ++ g.edges.map Prod.fst ++ g.edges.map Prod.snd ++ cynos)

/-- Fuel that dominates the loop's iteration count: each of the at most
`univ * (k+1)` states is finalised once, each finalisation pushes at
most `edges + cynos` new heap entries, and every iteration pops one. -/
def routeFuel (g : Graph) (cynos : List String) (start : String) (k : ℕ) : ℕ :=
  (nodeUniv g cynos start).dedup.length * (k + 1) *
    (g.edges.length + cynos.length + 1) + 2

/-- `build_route(start, end, max_ly, max_cynos, bridge_type)`. -/
def build_route (st : MapState) (start endSys : String) (max_ly : ℚ) (max_cynos : ℤ)
    (bridge_type : String) : RouteResult :=
  if start ∉ sdeNames st ∨ endSys ∉ sdeNames st then
    .error ("System not found in SDE: " ++ (if start ∉ sdeNames st then start else endSys))
  else if start ∉ st.gate_graph.nodes ∨ endSys ∉ st.gate_graph.nodes then
    .error ("System not found in gate graph: " ++
      (if start ∉ st.gate_graph.nodes then start else endSys))
  else
    -- the Python set comprehension: deduplicated, membership-filtered candidates
    let cynos := ((get_valid_cyno_candidates st bridge_type).filter
      (fun s => decide (s ∈ sdeNames st) && decide (s ∈ st.gate_graph.nodes))).dedup
    match routeLoop st cynos max_ly max_cynos endSys
        (routeFuel st.gate_graph cynos start max_cynos.toNat) []
        [{ cost := 0, cynos_used := 0, current := start, path := [("start", start)] }] with
    | some p => .path (convertPath st.wormhole_links none p)
    | none => .noPath

/-! ## The `/route` endpoint -/

/-- The request arguments of `/route`; an absent query parameter is
`none`.  Numeric parameters arrive as strings and are parsed by
`float`/`int`, so a present value is modelled already parsed. -/
structure RouteArgs where
  start : Option String
  endSys : Option String     -- the "end" parameter ("end" is reserved in Lean)
  bridge_type : Option String
  range : Option ℚ
  max_cynos : Option ℤ
deriving DecidableEq, Repr

/-- The `max_ly` selection of `route()`: the two named bridge types map
to fixed constants, everything else (including combined strings such as
"titan,blops") falls through to
`float(request.args.get("range", DEFAULT_CYNO_RANGE))`. -/
def route_max_ly (args : RouteArgs) : ℚ :=
  let bridge_type := args.bridge_type.getD "titan"
  if bridge_type = "titan" then 6.0
  else if bridge_type = "blops" then 8.0
  else args.range.getD DEFAULT_CYNO_RANGE

/-- Python `int()` on a rational float value truncates toward zero. -/
def ratTrunc (q : ℚ) : ℤ := if 0 ≤ q then q.floor else q.ceil

/-- `int(request.args.get("max_cynos", DEFAULT_MAX_CYNOS))`. -/
def route_max_cynos (arg : Option ℤ) : ℤ :=
  match arg with
  | some n => n
  | none => ratTrunc DEFAULT_MAX_CYNOS

/-- An HTTP response of `/route`. -/
inductive RouteResponse where
  | badRequest (msg : String)                                             -- 400
  | notFound (msg : String)                                               -- 404
  | ok (fromS toS : String) (steps : List StepOut) (total_jumps : ℕ)
      (used_cyno : Bool)                                                  -- 200
  | serverError                                                           -- 500
deriving DecidableEq, Repr

/-- The `/route` handler.  When `build_route` returns its error record
`[{"error": …}]`, the list is truthy, so the handler falls through to
`any(s["type"] == "cyno" for s in steps)`, which raises `KeyError` on
the error record: an unhandled exception, modelled as `serverError`. -/
def route (st : MapState) (args : RouteArgs) : RouteResponse :=
  let start := args.start.getD ""
  let endSys := args.endSys.getD ""
  let bridge_type := args.bridge_type.getD "titan"
  let max_ly := route_max_ly args
  let max_cynos := route_max_cynos args.max_cynos
  if start = "" ∨ endSys = "" then .badRequest "Missing 'start' or 'end'"
  else if start ∉ sdeNames st ∨ endSys ∉ sdeNames st then .notFound "System not found"
  else
    match build_route st start endSys max_ly max_cynos bridge_type with
    | .noPath => .notFound "No path found"                         -- `if not steps`
    | .error _ => .serverError                                     -- KeyError on s["type"]
    | .path steps =>
      if steps.isEmpty then .notFound "No path found"              -- `if not steps`
      else .ok start endSys steps (steps.length - 1)
        (steps.any (fun s => s.type == "cyno"))

/-! ## The `/add_wh` endpoint -/

/-- An HTTP response of `/add_wh`. -/
inductive AddWhResponse where
  | badRequest (msg : String)                                             -- 400
  | notFound (msg : String)                                               -- 404
  | ok (msg : String) (added_at : ℤ) (priv : Bool)
      (sig_a sig_b : Option String)                                       -- 200
deriving DecidableEq, Repr

/-- The `/add_wh` handler: validates both systems against the SDE,
creates (or replaces) a `source="custom"` link stamped `added_at=now`,
adds the edge to the shared graph and persists the full snapshot. -/
def add_wh (st : MapState) (system_a system_b sig_a sig_b : Option String)
    (priv : Option Bool) (now : ℤ) : AddWhResponse × MapState :=
  let sa := system_a.getD ""
  let sb := system_b.getD ""
  let priv := priv.getD true
  if sa = "" ∨ sb = "" then (.badRequest "Missing 'a' or 'b' system name", st)
  else if sa ∉ sdeNames st ∨ sb ∉ sdeNames st then
    (.notFound "One or both systems not recognized", st)
  else
    let link : Link :=
      { a := sa, b := sb, sig_a := sig_a, sig_b := sig_b, source := "custom",
        added_at := some now, expires_at := none, priv := priv }
    let st' := { st with
      gate_graph := st.gate_graph.add_edge sa sb,
      wormhole_links := wlInsert st.wormhole_links (sa, sb) link }
    (.ok ("Custom wormhole added between " ++ sa ++ " and " ++ sb ++ ".")
      now priv sig_a sig_b, st')

/-! ## The `/del_wh` endpoint -/

/-- An HTTP response of `/del_wh`. -/
inductive DelWhResponse where
  | badRequest (msg : String)                                             -- 400
  | noMatch (msg : String)                                                -- 404
  | removed (count : ℕ)                                                   -- 200
deriving DecidableEq, Repr

/-- The match condition of the `del_wh` loop: a custom link is collected
when the given system matches either side AND the given sig matches
either side's signature (the two sides are tested independently). -/
def del_wh_matches (system sig_id : String) (l : Link) : Bool :=
  l.source == "custom" &&
    (system == l.a || system == l.b) &&
    (some sig_id == l.sig_a || some sig_id == l.sig_b)

/-- The `/del_wh` handler: collects the matching custom links, removes
their edges from the shared graph (each removal guarded by `has_edge`),
deletes them from the store, persists, and reports the count; an empty
match is the 404 "No matching custom wormhole found." response. -/
def del_wh (st : MapState) (system_name sig_id : Option String) :
    DelWhResponse × MapState :=
  let system := system_name.getD ""
  let sig := sig_id.getD ""
  if system = "" ∨ sig = "" then
    (.badRequest "Both 'system_name' and 'sig_id' are required", st)
  else
    let to_remove := (st.wormhole_links.filter (fun e => del_wh_matches system sig e.2)).map (·.1)
    if to_remove = [] then (.noMatch "No matching custom wormhole found.", st)
    else
      let g' := to_remove.foldl (fun g p =>
        if g.hasEdge p.1 p.2 then g.remove_edge p.1 p.2 else g) st.gate_graph
      let wl' := st.wormhole_links.filter (fun e => !(to_remove.any (fun p => pairEq p e.1)))
      (.removed to_remove.length,
        { st with gate_graph := g', wormhole_links := wl' })

/-! ## `load_custom_wormholes` and the Eve-Scout reconciliation -/

/-- The loop body condition of `load_custom_wormholes`: a file entry is
skipped (`continue`) exactly when it is a custom link carrying an
`added_at` older than 48 hours. -/
def custom_expired (now : ℤ) (link : Link) : Bool :=
  link.source == "custom" &&
    (match link.added_at with
     | some t => decide (now - t > 48 * 3600)
     | none => false)

/-- `load_custom_wormholes()`: re-reads `wormhole.json` and re-adds every
entry that is not an expired custom link to the shared graph and the
link dict.  Note that it only ever adds — nothing is removed here. -/
def load_custom_wormholes (g : Graph) (wl : List (Pair × Link))
    (fileLinks : List Link) (now : ℤ) : Graph × List (Pair × Link) :=
  fileLinks.foldl (fun s link =>
    if custom_expired now link then s
    else (s.1.add_edge link.a link.b, wlInsert s.2 (link.a, link.b) link))
    (g, wl)

/-- One record of the Eve-Scout `/v2/public/signatures` feed (only the
fields the handler reads for control flow; the rest is copied verbatim
into free-form metadata). -/
structure FeedSig where
  in_system_name : Option String
  out_system_name : Option String
  in_signature : Option String
  out_signature : Option String
  expires_at : ℤ
  created_at : ℤ
deriving DecidableEq, Repr

/-- The link record built from a feed signature (`source="evescout"`). -/
def feed_link (sig : FeedSig) (a b : String) : Link :=
  { a := a, b := b, sig_a := sig.in_signature, sig_b := sig.out_signature,
    source := "evescout", added_at := none, expires_at := some sig.expires_at,
    priv := false }

/-- `fetch_evescout_wormholes()` on a successful fetch: re-add the file
links (via `load_custom_wormholes`), drop every `source="evescout"` link
whose pair is absent from the fresh feed, insert the unexpired feed
records, and persist the merged snapshot.  Returns the new state and the
document written to `wormhole.json`. -/
def fetch_evescout_wormholes (st : MapState) (feed : List FeedSig)
    (fileLinks : List Link) (now : ℤ) : MapState × List Link :=
  let s1 := load_custom_wormholes st.gate_graph st.wormhole_links fileLinks now
  let newPairs : List (Pair × Link) := feed.filterMap (fun sig =>
    match sig.in_system_name, sig.out_system_name with
    | some a, some b =>
      if a = "" ∨ b = "" then none                        -- `if not a or not b`
      else if sig.expires_at - now < 0 then none          -- already expired
      else some ((a, b), feed_link sig a b)
    | _, _ => none)
  let new_edges := newPairs.map (·.1)
  let stale_edges := (s1.2.filter (fun e =>
    e.2.source == "evescout" && !(new_edges.any (fun p => pairEq p e.1)))).map (·.1)
  let g2 := stale_edges.foldl (fun g p =>
    if g.hasEdge p.1 p.2 then g.remove_edge p.1 p.2 else g) s1.1
  let wl2 := s1.2.filter (fun e => !(stale_edges.any (fun p => pairEq p e.1)))
  let g3 := newPairs.foldl (fun g e => g.add_edge e.1.1 e.1.2) g2
  let wl3 := newPairs.foldl (fun wl e => wlInsert wl e.1 e.2) wl2
  ({ st with gate_graph := g3, wormhole_links := wl3 }, wl3.map (·.2))

/-- The module-level startup load of `wormhole.json` (lines 184–190):
every stored link is re-added to the graph and the dict with no expiry
check at all. -/
def startup_load (st : MapState) (fileLinks : List Link) : MapState :=
  fileLinks.foldl (fun s link =>
    { s with
      gate_graph := s.gate_graph.add_edge link.a link.b,
      wormhole_links := wlInsert s.wormhole_links (link.a, link.b) link }) st

/-! ## Walks in the composite graph (the mathematical yardstick) -/

/-- A walk of length `n` from `a` to `b` in `g` (the composite graph of
permanent and dynamic edges).  The shortest-path distance between two
connected nodes is the least `n` with `IsWalkN g a b n`. -/
inductive IsWalkN (g : Graph) : String → String → ℕ → Prop where
  | nil (a : String) : IsWalkN g a a 0
  | snoc {a b c : String} {n : ℕ} :
      IsWalkN g a b n → g.hasEdge b c = true → IsWalkN g a c (n + 1)

/-- Connectivity in the composite graph. -/
def Reachable (g : Graph) (a b : String) : Prop := ∃ n, IsWalkN g a b n

/-- `ChainFrom g a l`: starting at `a`, the successive elements of `l`
are each joined to their predecessor by an edge of `g`. -/
def ChainFrom (g : Graph) : String → List String → Prop
  | _, [] => True
  | a, b :: l => g.hasEdge a b = true ∧ ChainFrom g b l

/-- What is true of every heap entry of a `bridge_type="none"` search:
it was built by successive edge traversals from the seed entry, so it
carries a genuine walk from `start` of length `cost`, uses no cyno, and
its node lies in the search universe. -/
structure EntryOkNone (g : Graph) (start : String) (e : Entry) : Prop where
  cynos0 : e.cynos_used = 0
  noCyno : ∀ s ∈ e.path, s.1 ≠ "cyno"
  len : e.path.length = e.cost + 1
  walk : ∃ l, e.path.map Prod.snd = start :: l ∧ ChainFrom g start l ∧
    l.getLastD start = e.current
  cur_univ : e.current ∈ nodeUniv g [] start

/-- The loop invariant of the `bridge_type="none"` search.
`entries` is soundness of the frontier; `relaxed` records that every
finalised node has had all its neighbours pushed with a cost within one
of the node's own (optimal) cost; `startEntry` seeds the induction;
`vNodup`/`vUniv` bound the number of finalisations. -/
structure LoopInv (g : Graph) (start : String)
    (visited : List (String × ℕ)) (heap : List Entry) : Prop where
  entries : ∀ e ∈ heap, EntryOkNone g start e
  relaxed : ∀ p ∈ visited, p.2 = 0 ∧ ∀ u, g.hasEdge p.1 u = true →
    ((u, 0) ∈ visited ∨ ∃ e ∈ heap, e.current = u ∧
      ∀ m, IsWalkN g start p.1 m → e.cost ≤ m + 1)
  startEntry : (start, 0) ∉ visited → ∃ e ∈ heap, e.current = start ∧ e.cost = 0
  vNodup : visited.Nodup
  vUniv : ∀ p ∈ visited, p.1 ∈ nodeUniv g [] start ∧ p.2 = 0

/-- The termination measure of the loop: states not yet finalised,
weighted by the maximal number of pushes one finalisation can make,
plus the heap size. -/
def loopPhi (g : Graph) (cynos : List String) (start : String) (k : ℕ)
    (visited : List (String × ℕ)) (heap : List Entry) : ℕ :=
  ((nodeUniv g cynos start).dedup.length * (k + 1) - visited.length) *
    (g.edges.length + cynos.length + 1) + heap.length

/-! ## The spec's reading of the retraction match (for the refinement
check of claim C7) -/

/-- Modelled from the spec: `retractLocal(nodeName, signatureId)` is said
to remove a link only when `signatureId` matches the signature metadata
of the *same* side that `nodeName` matched (the corresponding side).
This definition follows the spec's words; `del_wh_matches` above is the
source's actual test, and C7 compares the two. -/
def del_wh_matches_spec (system sig_id : String) (l : Link) : Bool :=
  l.source == "custom" &&
    ((system == l.a && some sig_id == l.sig_a) ||
     (system == l.b && some sig_id == l.sig_b))

/-! ## Concrete states used by the scenario claims -/

def rowA : SystemRow := ⟨1, "A", 0, 0, 0, 0, 10⟩
def rowB : SystemRow := ⟨2, "B", 0, 0, 0, 1, 10⟩
def rowC : SystemRow := ⟨3, "C", 0, 0, 0, 1, 10⟩
/-- Exactly one light-year from `rowA` (x = LY_CONVERSION meters). -/
def rowD : SystemRow := ⟨4, "D", 9460700000000000, 0, 0, 0, 10⟩
def rowZarzakh : SystemRow := ⟨5, "Zarzakh", 0, 0, 0, 0, 10⟩

/-- The C2 scenario: gates A–B, B–C, C–D; A and D cyno-capable
(security 0 ≤ 0.4) and one light-year apart; B, C not (security 1). -/
def stC2 : MapState :=
  { systems := [rowA, rowB, rowC, rowD],
    gate_graph := ((Graph.empty.add_edge "A" "B").add_edge "B" "C").add_edge "C" "D",
    wormhole_links := [] }

/-- The C3 scenario, before the assert: two known systems, no edges. -/
def stC3start : MapState :=
  { systems := [rowA, rowB], gate_graph := Graph.empty, wormhole_links := [] }

/-- The C3 scenario after `add_wh` ("assert local link") at T = 0. -/
def stC3 : MapState :=
  (add_wh stC3start (some "A") (some "B") (some "SIG-1") (some "SIG-2")
    (some false) 0).2

/-- The local link created by the C3 assert. -/
def linkC3 : Link :=
  { a := "A", b := "B", sig_a := some "SIG-1", sig_b := some "SIG-2",
    source := "custom", added_at := some 0, expires_at := none, priv := false }

/-- The C3 state after an Eve-Scout reconciliation (empty feed) at
T + 49h, with `wormhole.json` holding what the assert persisted. -/
def stC3at49 : MapState :=
  (fetch_evescout_wormholes stC3 [] (savedLinks stC3) (49 * 3600)).1

/-- The document the T + 49h reconciliation writes back to disk. -/
def fileC3at49 : List Link :=
  (fetch_evescout_wormholes stC3 [] (savedLinks stC3) (49 * 3600)).2

/-- The C4 witness state: one evescout link A–B in store and graph. -/
def evescoutLinkAB : Link :=
  { a := "A", b := "B", sig_a := some "SIG-A", sig_b := some "SIG-B",
    source := "evescout", added_at := none, expires_at := some 1000000,
    priv := false }

def stC4 : MapState :=
  { systems := [rowA, rowB], gate_graph := Graph.empty.add_edge "A" "B",
    wormhole_links := [(("A", "B"), evescoutLinkAB)] }

/-- The C6 scenario: A–B is a permanent (SDE) gate edge. -/
def stC6 : MapState :=
  { systems := [rowA, rowB], gate_graph := load_sde_graph [rowA, rowB] [(1, 2)],
    wormhole_links := [] }

/-- C6: assert a custom link on the same pair, then retract it. -/
def stC6' : MapState :=
  (del_wh (add_wh stC6 (some "A") (some "B") (some "SIG-1") (some "SIG-2")
    (some true) 0).2 (some "A") (some "SIG-1")).2

/-- The C7 counterexample link: sides A/B with sigs SIG-1/SIG-2. -/
def linkC7 : Link :=
  { a := "A", b := "B", sig_a := some "SIG-1", sig_b := some "SIG-2",
    source := "custom", added_at := some 0, expires_at := none, priv := true }

def stC7 : MapState :=
  { systems := [rowA, rowB], gate_graph := Graph.empty.add_edge "A" "B",
    wormhole_links := [(("A", "B"), linkC7)] }

/-- The C8 counterexample state: "A" was a graph node but all its edges
were removed again — a node of the composite graph with zero edges. -/
def stC8 : MapState :=
  { systems := [rowA, rowB],
    gate_graph := (Graph.empty.add_edge "A" "B").remove_edge "A" "B",
    wormhole_links := [] }

/-- A state whose composite graph never saw "A" or "B" at all. -/
def stC8b : MapState :=
  { systems := [rowA, rowB], gate_graph := Graph.empty, wormhole_links := [] }

/-- The C10 witness: a dynamic (custom) link into Zarzakh. -/
def linkC10 : Link :=
  { a := "A", b := "Zarzakh", sig_a := some "SIG-1", sig_b := some "SIG-2",
    source := "custom", added_at := some 0, expires_at := none, priv := false }

def stC10 : MapState :=
  { systems := [rowA, rowZarzakh],
    gate_graph := Graph.empty.add_edge "A" "Zarzakh",
    wormhole_links := [(("A", "Zarzakh"), linkC10)] }

def stepsC10 : List StepOut :=
  [⟨"start", "A", none⟩, ⟨"wormhole", "Zarzakh", some linkC10⟩]

/-! # Lemmas -/

theorem CYNO_SECURITY_MAX_eq : CYNO_SECURITY_MAX = 0.4 := by
  rw [CYNO_SECURITY_MAX, Rat.mk'_eq_divInt]
  norm_num [Rat.divInt_eq_div]

/-! ## Walks, chains and neighbours -/

theorem IsWalkN.cons {g : Graph} {a b c : String} {n : ℕ}
    (h : g.hasEdge a b = true) (w : IsWalkN g b c n) : IsWalkN g a c (n + 1) := by
  induction w with
  | nil => exact .snoc (.nil a) h
  | snoc w e ih => exact .snoc ih e

theorem isWalkN_zero {g : Graph} {a c : String} (w : IsWalkN g a c 0) : c = a := by
  cases w; rfl

theorem isWalkN_succ {g : Graph} {a c : String} {n : ℕ} (w : IsWalkN g a c (n + 1)) :
    ∃ b, IsWalkN g a b n ∧ g.hasEdge b c = true := by
  cases w with
  | snoc w e => exact ⟨_, w, e⟩

theorem getLastD_cons (b a : String) (l : List String) :
    (b :: l).getLastD a = l.getLastD b := by
  cases l <;> simp [List.getLastD]

theorem chainFrom_isWalkN {g : Graph} :
    ∀ (l : List String) (a : String), ChainFrom g a l →
      IsWalkN g a (l.getLastD a) l.length := by
  intro l
  induction l with
  | nil => intro a _; exact .nil a
  | cons b l ih =>
    intro a h
    obtain ⟨he, hc⟩ := h
    rw [getLastD_cons]
    exact IsWalkN.cons he (ih b hc)

theorem chainFrom_append {g : Graph} :
    ∀ (l : List String) (a u : String), ChainFrom g a l →
      g.hasEdge (l.getLastD a) u = true → ChainFrom g a (l ++ [u]) := by
  intro l
  induction l with
  | nil => intro a u _ he; exact ⟨he, trivial⟩
  | cons b l ih =>
    intro a u h he
    obtain ⟨hab, hc⟩ := h
    rw [getLastD_cons] at he
    exact ⟨hab, ih b u hc he⟩

theorem mem_neighbors_hasEdge {g : Graph} {u n : String}
    (h : n ∈ g.neighbors u) : g.hasEdge u n = true := by
  rw [Graph.neighbors] at h
  rw [Graph.hasEdge, List.any_eq_true]
  obtain ⟨e, he, hn⟩ := List.mem_filterMap.mp h
  refine ⟨e, he, ?_⟩
  by_cases h1 : e.1 = u
  · simp only [h1, if_pos rfl] at hn
    obtain rfl : e.2 = n := by injection hn
    simp [pairEq, h1]
  · rw [if_neg h1] at hn
    by_cases h2 : e.2 = u
    · rw [if_pos h2] at hn
      obtain rfl : e.1 = n := by injection hn
      simp [pairEq, h2]
    · rw [if_neg h2] at hn; cases hn

theorem hasEdge_mem_neighbors {g : Graph} {u n : String}
    (h : g.hasEdge u n = true) : n ∈ g.neighbors u := by
  rw [Graph.hasEdge, List.any_eq_true] at h
  obtain ⟨e, he, hp⟩ := h
  rw [Graph.neighbors]
  rw [pairEq, Bool.or_eq_true, Bool.and_eq_true, Bool.and_eq_true] at hp
  simp only [beq_iff_eq] at hp
  apply List.mem_filterMap.mpr
  refine ⟨e, he, ?_⟩
  rcases hp with ⟨h1, h2⟩ | ⟨h1, h2⟩
  · rw [if_pos h1, h2]
  · by_cases hq : e.1 = u
    · rw [if_pos hq]
      rw [hq] at h1; rw [h1] at h2
      rw [h2]
    · rw [if_neg hq, if_pos h2, h1]

theorem mem_neighbors_univ {g : Graph} {cynos : List String} {start u n : String}
    (h : n ∈ g.neighbors u) : n ∈ nodeUniv g cynos start := by
  rw [Graph.neighbors] at h
  obtain ⟨e, he, hn⟩ := List.mem_filterMap.mp h
  simp only [nodeUniv, List.mem_cons, List.mem_append, List.mem_map]
  by_cases h1 : e.1 = u
  · simp only [h1, if_pos rfl] at hn
    obtain rfl : e.2 = n := by injection hn
    exact .inr (.inl (.inr ⟨e, he, rfl⟩))
  · rw [if_neg h1] at hn
    by_cases h2 : e.2 = u
    · rw [if_pos h2] at hn
      obtain rfl : e.1 = n := by injection hn
      exact .inr (.inl (.inl (.inr ⟨e, he, rfl⟩)))
    · rw [if_neg h2] at hn; cases hn

theorem neighbors_length_le (g : Graph) (u : String) :
    (g.neighbors u).length ≤ g.edges.length :=
  List.length_filterMap_le _ _

/-! ## `popMin` -/

theorem entryLt_cost_le {x y : Entry} (h : entryLt x y = true) : x.cost ≤ y.cost := by
  rw [entryLt, Bool.or_eq_true] at h
  rcases h with h | h
  · exact le_of_lt (of_decide_eq_true h)
  · rw [Bool.and_eq_true] at h
    exact le_of_eq (beq_iff_eq.mp h.1)

theorem entryLt_cost_ge {x y : Entry} (h : entryLt x y = false) : y.cost ≤ x.cost := by
  rw [entryLt, Bool.or_eq_false_iff] at h
  have := h.1
  rw [decide_eq_false_iff_not] at this
  omega

theorem foldlMin_spec (es : List Entry) :
    ∀ acc : Entry,
      (es.foldl (fun a x => if entryLt x a then x else a) acc) ∈ acc :: es ∧
      (es.foldl (fun a x => if entryLt x a then x else a) acc).cost ≤ acc.cost ∧
      ∀ x ∈ es, (es.foldl (fun a x => if entryLt x a then x else a) acc).cost ≤ x.cost := by
  induction es with
  | nil => intro acc; exact ⟨List.mem_singleton.mpr rfl, le_rfl, by simp⟩
  | cons x es ih =>
    intro acc
    simp only [List.foldl_cons]
    by_cases hlt : entryLt x acc = true
    · rw [if_pos hlt]
      obtain ⟨hmem, hle, hall⟩ := ih x
      refine ⟨?_, le_trans hle (entryLt_cost_le hlt), ?_⟩
      · rcases List.mem_cons.mp hmem with h | h
        · rw [h]; exact List.mem_cons_of_mem _ (List.mem_cons_self _ _)
        · exact List.mem_cons_of_mem _ (List.mem_cons_of_mem _ h)
      · intro y hy
        rcases List.mem_cons.mp hy with rfl | hy
        · exact hle
        · exact hall y hy
    · rw [if_neg hlt]
      have hlt' : entryLt x acc = false := Bool.eq_false_iff.mpr hlt
      obtain ⟨hmem, hle, hall⟩ := ih acc
      refine ⟨?_, hle, ?_⟩
      · rcases List.mem_cons.mp hmem with h | h
        · rw [h]; exact List.mem_cons_self _ _
        · exact List.mem_cons_of_mem _ (List.mem_cons_of_mem _ h)
      · intro y hy
        rcases List.mem_cons.mp hy with rfl | hy
        · exact le_trans hle (entryLt_cost_ge hlt')
        · exact hall y hy

theorem popMin_eq_none {heap : List Entry} (h : popMin heap = none) : heap = [] := by
  cases heap with
  | nil => rfl
  | cons e es => rw [popMin] at h; cases h

theorem popMin_spec {heap : List Entry} {e : Entry} {rest : List Entry}
    (h : popMin heap = some (e, rest)) :
    e ∈ heap ∧ rest = heap.erase e ∧ ∀ x ∈ heap, e.cost ≤ x.cost := by
  cases heap with
  | nil => cases h
  | cons e0 es =>
    simp only [popMin, Option.some.injEq, Prod.mk.injEq] at h
    obtain ⟨rfl, rfl⟩ := h
    obtain ⟨hmem, hle, hall⟩ := foldlMin_spec es e0
    refine ⟨hmem, rfl, ?_⟩
    intro x hx
    rcases List.mem_cons.mp hx with rfl | hx
    · exact hle
    · exact hall x hx

/-! ## The Dijkstra invariant of the `bridge_type="none"` search -/

theorem entryOk_walk {g : Graph} {start : String} {e : Entry}
    (h : EntryOkNone g start e) : IsWalkN g start e.current e.cost := by
  obtain ⟨l, hmap, hchain, hlast⟩ := h.walk
  have hlen : l.length = e.cost := by
    have := congrArg List.length hmap
    rw [List.length_map, h.len] at this
    simpa using this.symm
  rw [← hlast, ← hlen]
  exact chainFrom_isWalkN l start hchain

theorem inv_cost_bound {g : Graph} {start : String} {visited : List (String × ℕ)}
    {heap : List Entry} (I : LoopInv g start visited heap) :
    ∀ (n : ℕ) (w : String), IsWalkN g start w n → (w, 0) ∉ visited →
      ∃ e ∈ heap, e.cost ≤ n := by
  intro n
  induction n with
  | zero =>
    intro w hw hnv
    obtain rfl := isWalkN_zero hw
    obtain ⟨e, he, -, hcost⟩ := I.startEntry hnv
    exact ⟨e, he, le_of_eq hcost⟩
  | succ n ih =>
    intro w hw hnv
    obtain ⟨w', hw', hedge⟩ := isWalkN_succ hw
    by_cases hv : (w', 0) ∈ visited
    · obtain ⟨-, hrel⟩ := I.relaxed _ hv
      rcases hrel w hedge with hmem | ⟨e, he, -, hbound⟩
      · exact absurd hmem hnv
      · exact ⟨e, he, hbound n hw'⟩
    · obtain ⟨e, he, hc⟩ := ih w' hw' hv
      exact ⟨e, he, le_trans hc (Nat.le_succ n)⟩

theorem pop_opt {g : Graph} {start : String} {visited : List (String × ℕ)}
    {heap rest : List Entry} {e : Entry} (I : LoopInv g start visited heap)
    (hpop : popMin heap = some (e, rest))
    (hnv : (e.current, e.cynos_used) ∉ visited) :
    (∀ m, IsWalkN g start e.current m → e.cost ≤ m) ∧
      IsWalkN g start e.current e.cost := by
  obtain ⟨hmem, -, hmin⟩ := popMin_spec hpop
  have ok := I.entries e hmem
  have hnv0 : (e.current, 0) ∉ visited := by rw [ok.cynos0] at hnv; exact hnv
  refine ⟨?_, entryOk_walk ok⟩
  intro m hw
  obtain ⟨e1, he1, hc1⟩ := inv_cost_bound I m e.current hw hnv0
  exact le_trans (hmin e1 he1) hc1

theorem inv_discard {g : Graph} {start : String} {visited : List (String × ℕ)}
    {heap rest : List Entry} {e : Entry} (I : LoopInv g start visited heap)
    (hpop : popMin heap = some (e, rest))
    (hv : (e.current, e.cynos_used) ∈ visited) :
    LoopInv g start visited rest := by
  obtain ⟨hmem, hrest, -⟩ := popMin_spec hpop
  subst hrest
  have ecyn : e.cynos_used = 0 := (I.entries e hmem).cynos0
  refine ⟨?_, ?_, ?_, I.vNodup, I.vUniv⟩
  · intro x hx; exact I.entries x (List.mem_of_mem_erase hx)
  · intro p hp
    obtain ⟨h2, hrel⟩ := I.relaxed p hp
    refine ⟨h2, ?_⟩
    intro u hu
    rcases hrel u hu with h | ⟨w, hw, hcur, hb⟩
    · exact .inl h
    · by_cases hwe : w = e
      · subst hwe
        rw [ecyn] at hv
        rw [hcur] at hv
        exact .inl hv
      · exact .inr ⟨w, (List.mem_erase_of_ne hwe).mpr hw, hcur, hb⟩
  · intro hs
    obtain ⟨w, hw, hcur, hcost⟩ := I.startEntry hs
    by_cases hwe : w = e
    · subst hwe
      rw [ecyn, hcur] at hv
      exact absurd hv hs
    · exact ⟨w, (List.mem_erase_of_ne hwe).mpr hw, hcur, hcost⟩

theorem inv_step {g : Graph} {wl : List (Pair × Link)} {start : String}
    {visited : List (String × ℕ)} {heap rest : List Entry} {e : Entry}
    (I : LoopInv g start visited heap)
    (hpop : popMin heap = some (e, rest))
    (hnv : (e.current, e.cynos_used) ∉ visited) :
    LoopInv g start ((e.current, e.cynos_used) :: visited)
      (rest ++ gatePushes g wl e) := by
  obtain ⟨hmem, hrest, -⟩ := popMin_spec hpop
  have ok := I.entries e hmem
  have hopt := pop_opt I hpop hnv
  refine ⟨?_, ?_, ?_, ?_, ?_⟩
  · -- entries
    intro x hx
    rcases List.mem_append.mp hx with hx | hx
    · subst hrest; exact I.entries x (List.mem_of_mem_erase hx)
    · rw [gatePushes] at hx
      obtain ⟨n, hn, hxe⟩ := List.mem_map.mp hx
      have hedge : g.hasEdge e.current n = true := mem_neighbors_hasEdge hn
      obtain ⟨l, hmap, hchain, hlast⟩ := ok.walk
      have lenl : x.path.length = x.cost + 1 ∧ x.cost = e.cost + 1 ∧
          x.cynos_used = e.cynos_used ∧ x.current = n ∧
          (x.path = e.path ++ [("wormhole", n)] ∨ x.path = e.path ++ [("gate", n)]) := by
        by_cases hwh : wlHasKey wl (e.current, n) = true
        · rw [if_pos hwh] at hxe
          subst hxe
          simp [ok.len]
        · rw [if_neg (by simpa using hwh)] at hxe
          subst hxe
          simp [ok.len]
      obtain ⟨hxlen, hxcost, hxcyn, hxcur, hxpath⟩ := lenl
      refine ⟨by rw [hxcyn, ok.cynos0], ?_, hxlen, ?_, ?_⟩
      · intro s hs
        rcases hxpath with h | h <;> rw [h] at hs <;>
          rcases List.mem_append.mp hs with hs | hs
        · exact ok.noCyno s hs
        · rw [List.mem_singleton] at hs; subst hs; simp
        · exact ok.noCyno s hs
        · rw [List.mem_singleton] at hs; subst hs; simp
      · refine ⟨l ++ [n], ?_, ?_, ?_⟩
        · rcases hxpath with h | h <;> rw [h] <;>
            simp [hmap]
        · exact chainFrom_append l start n hchain (by rw [hlast]; exact hedge)
        · rw [hxcur, List.getLastD_concat]
      · rw [hxcur]; exact mem_neighbors_univ hn
  · -- relaxed
    intro p hp
    rcases List.mem_cons.mp hp with rfl | hp
    · refine ⟨ok.cynos0, ?_⟩
      intro u hu
      by_cases hwh : wlHasKey wl (e.current, u) = true
      · refine .inr (Exists.intro
          { cost := e.cost + 1, cynos_used := e.cynos_used, current := u,
            path := e.path ++ [("wormhole", u)] } ?_)
        refine ⟨?_, rfl, ?_⟩
        · refine List.mem_append.mpr (.inr ?_)
          rw [gatePushes]
          refine List.mem_map.mpr ⟨u, hasEdge_mem_neighbors hu, ?_⟩
          rw [if_pos hwh]
        · intro m hw
          have hc : e.cost ≤ m := hopt.1 m hw
          show e.cost + 1 ≤ m + 1
          omega
      · refine .inr (Exists.intro
          { cost := e.cost + 1, cynos_used := e.cynos_used, current := u,
            path := e.path ++ [("gate", u)] } ?_)
        refine ⟨?_, rfl, ?_⟩
        · refine List.mem_append.mpr (.inr ?_)
          rw [gatePushes]
          refine List.mem_map.mpr ⟨u, hasEdge_mem_neighbors hu, ?_⟩
          rw [if_neg (by simpa using hwh)]
        · intro m hw
          have hc : e.cost ≤ m := hopt.1 m hw
          show e.cost + 1 ≤ m + 1
          omega
    · obtain ⟨h2, hrel⟩ := I.relaxed p hp
      refine ⟨h2, ?_⟩
      intro u hu
      rcases hrel u hu with h | ⟨w, hw, hcur, hb⟩
      · exact .inl (List.mem_cons_of_mem _ h)
      · by_cases hwr : w ∈ rest
        · exact .inr ⟨w, List.mem_append.mpr (.inl hwr), hcur, hb⟩
        · have hwe : w = e := by
            by_contra hne
            refine hwr ?_
            rw [hrest]
            exact (List.mem_erase_of_ne hne).mpr hw
          subst hwe
          rw [← hcur, ← ok.cynos0]
          exact .inl (List.mem_cons_self _ _)
  · -- startEntry
    intro hs
    have hs1 : (start, 0) ≠ (e.current, e.cynos_used) :=
      fun h => hs (h ▸ List.mem_cons_self _ _)
    have hs2 : (start, 0) ∉ visited := fun h => hs (List.mem_cons_of_mem _ h)
    obtain ⟨w, hw, hcur, hcost⟩ := I.startEntry hs2
    have hwe : w ≠ e := by
      intro hcontra
      refine hs1 ?_
      rw [hcontra] at hcur
      rw [← hcur, ok.cynos0]
    refine ⟨w, List.mem_append.mpr (.inl ?_), hcur, hcost⟩
    rw [hrest]
    exact (List.mem_erase_of_ne hwe).mpr hw
  · -- nodup
    exact List.nodup_cons.mpr ⟨hnv, I.vNodup⟩
  · -- universe
    intro p hp
    rcases List.mem_cons.mp hp with rfl | hp
    · exact ⟨ok.cur_univ, ok.cynos0⟩
    · exact I.vUniv p hp

/-! ## The loop measure -/

theorem visited_length_le {g : Graph} {start : String} (k : ℕ)
    {visited : List (String × ℕ)} (hnd : visited.Nodup)
    (hu : ∀ p ∈ visited, p.1 ∈ nodeUniv g [] start ∧ p.2 = 0) :
    visited.length ≤ (nodeUniv g [] start).dedup.length * (k + 1) := by
  have hcard : visited.toFinset.card = visited.length :=
    List.toFinset_card_of_nodup hnd
  have hsub : visited.toFinset ⊆
      (nodeUniv g [] start).toFinset ×ˢ Finset.range (k + 1) := by
    intro p hp
    rw [List.mem_toFinset] at hp
    obtain ⟨h1, h2⟩ := hu p hp
    rw [Finset.mem_product, Finset.mem_range]
    exact ⟨List.mem_toFinset.mpr h1, by omega⟩
  calc visited.length = visited.toFinset.card := hcard.symm
    _ ≤ ((nodeUniv g [] start).toFinset ×ˢ Finset.range (k + 1)).card :=
        Finset.card_le_card hsub
    _ = (nodeUniv g [] start).dedup.length * (k + 1) := by
        rw [Finset.card_product, Finset.card_range, List.card_toFinset]

theorem phi_discard {g : Graph} {cynos : List String} {start : String} {k : ℕ}
    {visited : List (String × ℕ)} {heap rest : List Entry} {e : Entry}
    (hpop : popMin heap = some (e, rest)) :
    loopPhi g cynos start k visited rest + 1 = loopPhi g cynos start k visited heap := by
  obtain ⟨hmem, hrest, -⟩ := popMin_spec hpop
  subst hrest
  have h1 : 1 ≤ heap.length := List.length_pos_of_mem hmem
  rw [loopPhi, loopPhi, List.length_erase_of_mem hmem]
  omega

theorem phi_step {g : Graph} {wl : List (Pair × Link)} {start : String} {k : ℕ}
    {visited : List (String × ℕ)} {heap rest : List Entry} {e : Entry}
    (hpop : popMin heap = some (e, rest))
    (hlen : visited.length + 1 ≤ (nodeUniv g [] start).dedup.length * (k + 1)) :
    loopPhi g [] start k ((e.current, e.cynos_used) :: visited)
        (rest ++ gatePushes g wl e) <
      loopPhi g [] start k visited heap := by
  obtain ⟨hmem, hrest, -⟩ := popMin_spec hpop
  subst hrest
  have h1 : 1 ≤ heap.length := List.length_pos_of_mem hmem
  have h2 : (gatePushes g wl e).length ≤ g.edges.length := by
    rw [gatePushes, List.length_map]; exact neighbors_length_le g e.current
  rw [loopPhi, loopPhi, List.length_append, List.length_erase_of_mem hmem,
    List.length_cons]
  have key : (nodeUniv g [] start).dedup.length * (k + 1) - visited.length =
      ((nodeUniv g [] start).dedup.length * (k + 1) - (visited.length + 1)) + 1 := by
    omega
  rw [key, Nat.succ_mul]
  simp only [List.length_nil]
  omega

/-! ## The loop, end to end -/

theorem routeLoop_none_correct (st : MapState) (start endSys : String)
    (max_ly : ℚ) (max_cynos : ℤ) :
    ∀ (fuel : ℕ) (visited : List (String × ℕ)) (heap : List Entry),
      LoopInv st.gate_graph start visited heap →
      loopPhi st.gate_graph [] start max_cynos.toNat visited heap < fuel →
      (endSys, 0) ∉ visited →
      Reachable st.gate_graph start endSys →
      ∃ p, routeLoop st [] max_ly max_cynos endSys fuel visited heap = some p ∧
        (∀ s ∈ p, s.1 ≠ "cyno") ∧
        IsWalkN st.gate_graph start endSys (p.length - 1) ∧
        (∀ m, IsWalkN st.gate_graph start endSys m → p.length - 1 ≤ m) := by
  intro fuel
  induction fuel with
  | zero =>
    intro visited heap _ hphi _ _
    exact absurd hphi (Nat.not_lt_zero _)
  | succ fuel ih =>
    intro visited heap I hphi hnv hreach
    rcases hpop : popMin heap with - | ⟨e, rest⟩
    · obtain ⟨n, hw⟩ := hreach
      obtain ⟨x, hx, -⟩ := inv_cost_bound I n endSys hw hnv
      rw [popMin_eq_none hpop] at hx
      cases hx
    · by_cases hv : (e.current, e.cynos_used) ∈ visited
      · have hphi' : loopPhi st.gate_graph [] start max_cynos.toNat visited rest < fuel := by
          have := @phi_discard st.gate_graph [] start max_cynos.toNat visited _ _ _ hpop
          omega
        obtain ⟨p, hp, hprops⟩ := ih visited rest (inv_discard I hpop hv) hphi' hnv hreach
        refine ⟨p, ?_, hprops⟩
        rw [routeLoop, hpop]
        simp only [if_pos hv]
        exact hp
      · by_cases hgoal : e.current = endSys
        · have ok := I.entries e (popMin_spec hpop).1
          have hopt := pop_opt I hpop hv
          have hl : e.path.length - 1 = e.cost := by
            rw [ok.len]; omega
          refine ⟨e.path, ?_, ok.noCyno, ?_, ?_⟩
          · rw [routeLoop, hpop]
            simp only [if_neg hv, if_pos hgoal]
          · rw [hl, ← hgoal]
            exact hopt.2
          · intro m hw
            rw [hl]
            exact hopt.1 m (by rw [hgoal]; exact hw)
        · have ok := I.entries e (popMin_spec hpop).1
          have hlen : visited.length + 1 ≤
              (nodeUniv st.gate_graph [] start).dedup.length * (max_cynos.toNat + 1) := by
            have hnd : ((e.current, e.cynos_used) :: visited).Nodup :=
              List.nodup_cons.mpr ⟨hv, I.vNodup⟩
            have hu : ∀ p ∈ (e.current, e.cynos_used) :: visited,
                p.1 ∈ nodeUniv st.gate_graph [] start ∧ p.2 = 0 := by
              intro p hp
              rcases List.mem_cons.mp hp with rfl | hp
              · exact ⟨ok.cur_univ, ok.cynos0⟩
              · exact I.vUniv p hp
            have := visited_length_le max_cynos.toNat hnd hu
            rw [List.length_cons] at this
            exact this
          have hphi' : loopPhi st.gate_graph [] start max_cynos.toNat
              ((e.current, e.cynos_used) :: visited)
              (rest ++ gatePushes st.gate_graph st.wormhole_links e) < fuel := by
            have := @phi_step st.gate_graph st.wormhole_links start max_cynos.toNat
              visited _ _ _ hpop hlen
            omega
          have hnv' : (endSys, 0) ∉ (e.current, e.cynos_used) :: visited := by
            intro hcontra
            rcases List.mem_cons.mp hcontra with h | h
            · exact hgoal (by injection h with h1 h2; exact h1.symm)
            · exact hnv h
          obtain ⟨p, hp, hprops⟩ := ih ((e.current, e.cynos_used) :: visited)
            (rest ++ gatePushes st.gate_graph st.wormhole_links e)
            (inv_step I hpop hv) hphi' hnv' hreach
          refine ⟨p, ?_, hprops⟩
          rw [routeLoop, hpop]
          simp only [if_neg hv, if_neg hgoal]
          have hcyn : cynoPushes st [] max_ly max_cynos
              ((e.current, e.cynos_used) :: visited) e = [] := by
            rw [cynoPushes, if_neg]
            intro hcontra
            exact absurd hcontra.1 (List.not_mem_nil _)
          rw [hcyn, List.append_nil]
          exact hp

theorem loopInv_init (g : Graph) (start : String) :
    LoopInv g start []
      [{ cost := 0, cynos_used := 0, current := start, path := [("start", start)] }] := by
  refine ⟨?_, by simp, ?_, List.nodup_nil, by simp⟩
  · intro e he
    rw [List.mem_singleton] at he
    subst he
    refine ⟨rfl, ?_, rfl, ⟨[], rfl, trivial, rfl⟩, List.mem_cons_self _ _⟩
    intro s hs
    rw [List.mem_singleton] at hs
    subst hs
    simp
  · intro _
    exact ⟨_, List.mem_singleton.mpr rfl, rfl, rfl⟩

theorem phi_init_lt (g : Graph) (start : String) (k : ℕ) :
    loopPhi g [] start k []
        [{ cost := 0, cynos_used := 0, current := start, path := [("start", start)] }] <
      routeFuel g [] start k := by
  rw [loopPhi, routeFuel]
  simp only [List.length_nil, List.length_cons, Nat.sub_zero]
  omega

theorem convertPath_length (wl : List (Pair × Link)) :
    ∀ (prev : Option String) (p : List Step),
      (convertPath wl prev p).length = p.length := by
  intro prev p
  induction p generalizing prev with
  | nil => rfl
  | cons s rest ih =>
    cases s with
    | mk t y => simp only [convertPath, List.length_cons, ih]

theorem convertPath_noCyno (wl : List (Pair × Link)) :
    ∀ (prev : Option String) (p : List Step), (∀ s ∈ p, s.1 ≠ "cyno") →
      ∀ o ∈ convertPath wl prev p, o.type ≠ "cyno" := by
  intro prev p
  induction p generalizing prev with
  | nil => intro _ o ho; cases ho
  | cons s rest ih =>
    intro hp o ho
    cases s with
    | mk t y =>
      rw [convertPath] at ho
      rcases List.mem_cons.mp ho with rfl | ho
      · by_cases ht : t = "wormhole"
        · rw [if_pos ht]; simp
        · rw [if_neg ht]
          exact hp (t, y) (List.mem_cons_self _ _)
      · exact ih (some y) (fun s hs => hp s (List.mem_cons_of_mem _ hs)) o ho

/-! ## The `frozenset` key equivalence -/

theorem pairEq_iff {p q : Pair} :
    pairEq p q = true ↔ (p.1 = q.1 ∧ p.2 = q.2) ∨ (p.1 = q.2 ∧ p.2 = q.1) := by
  rw [pairEq]
  simp [Bool.or_eq_true, Bool.and_eq_true]

theorem pairEq_refl (p : Pair) : pairEq p p = true := by
  rw [pairEq_iff]; exact .inl ⟨rfl, rfl⟩

theorem pairEq_symm {p q : Pair} (h : pairEq p q = true) : pairEq q p = true := by
  rw [pairEq_iff] at h ⊢
  tauto

theorem pairEq_trans {p q r : Pair} (h1 : pairEq p q = true)
    (h2 : pairEq q r = true) : pairEq p r = true := by
  rw [pairEq_iff] at h1 h2 ⊢
  rcases h1 with ⟨a1, a2⟩ | ⟨a1, a2⟩ <;> rcases h2 with ⟨b1, b2⟩ | ⟨b1, b2⟩ <;>
    simp_all

theorem pairEq_congr_right {e p q : Pair} (h : pairEq p q = true) :
    pairEq e p = pairEq e q := by
  by_cases h1 : pairEq e p = true
  · rw [h1, pairEq_trans h1 h]
  · rw [Bool.eq_false_iff.mpr h1]
    symm
    rw [Bool.eq_false_iff]
    intro h2
    exact h1 (pairEq_trans h2 (pairEq_symm h))

/-! ## Graph edge bookkeeping -/

theorem anyB_congr {α : Type} {f g : α → Bool} :
    ∀ (l : List α), (∀ a ∈ l, f a = g a) → l.any f = l.any g := by
  intro l
  induction l with
  | nil => intro _; rfl
  | cons x xs ih =>
    intro h
    rw [List.any_cons, List.any_cons, h x (List.mem_cons_self _ _),
      ih (fun a ha => h a (List.mem_cons_of_mem _ ha))]

theorem hasEdge_congr {g : Graph} {p q : Pair} (h : pairEq p q = true) :
    g.hasEdge p.1 p.2 = g.hasEdge q.1 q.2 := by
  rw [Graph.hasEdge, Graph.hasEdge]
  exact anyB_congr _ (fun e _ => by
    rw [Prod.mk.eta, Prod.mk.eta]
    exact pairEq_congr_right h)

theorem hasEdge_add_self (g : Graph) (a b : String) :
    (g.add_edge a b).hasEdge a b = true := by
  rw [Graph.add_edge]
  by_cases h : g.hasEdge a b = true
  · show (if g.hasEdge a b then g.edges else g.edges ++ [(a, b)]).any _ = true
    rw [if_pos h]
    exact h
  · show (if g.hasEdge a b then g.edges else g.edges ++ [(a, b)]).any _ = true
    rw [if_neg h, List.any_append]
    simp [pairEq_refl]

theorem hasEdge_add_of_ne {g : Graph} {a b u v : String}
    (h : pairEq (a, b) (u, v) = false) :
    (g.add_edge a b).hasEdge u v = g.hasEdge u v := by
  rw [Graph.add_edge]
  show (if g.hasEdge a b then g.edges else g.edges ++ [(a, b)]).any _ = _
  by_cases hab : g.hasEdge a b = true
  · rw [if_pos hab]; rfl
  · rw [if_neg hab, List.any_append]
    show (g.hasEdge u v || _) = g.hasEdge u v
    simp [h]

theorem hasEdge_remove_false {g : Graph} {a b u v : String}
    (h : g.hasEdge u v = false) :
    (g.remove_edge a b).hasEdge u v = false := by
  rw [Graph.remove_edge, Graph.hasEdge]
  rw [Graph.hasEdge] at h
  simp only [List.any_eq_false] at h ⊢
  intro e he
  exact h e (List.mem_of_mem_filter he)

theorem hasEdge_remove_self (g : Graph) (a b : String) :
    (g.remove_edge a b).hasEdge a b = false := by
  rw [Graph.remove_edge, Graph.hasEdge]
  rw [List.any_eq_false]
  intro e he
  obtain ⟨-, hcond⟩ := List.mem_filter.mp he
  rw [Bool.not_eq_true'] at hcond
  simp [hcond]

/-- The guarded removal `if has_edge(a, b): remove_edge(a, b)` used by
`del_wh` and the staleness sweep. -/
theorem guardedRemove_self (g : Graph) (p : Pair) :
    (if g.hasEdge p.1 p.2 = true then g.remove_edge p.1 p.2 else g).hasEdge p.1 p.2
      = false := by
  by_cases h : g.hasEdge p.1 p.2 = true
  · rw [if_pos h]; exact hasEdge_remove_self g p.1 p.2
  · rw [if_neg h]; exact Bool.eq_false_iff.mpr h

theorem guardedRemove_false {g : Graph} {q : Pair} {u v : String}
    (h : g.hasEdge u v = false) :
    (if g.hasEdge q.1 q.2 = true then g.remove_edge q.1 q.2 else g).hasEdge u v
      = false := by
  by_cases hq : g.hasEdge q.1 q.2 = true
  · rw [if_pos hq]; exact hasEdge_remove_false h
  · rw [if_neg hq]; exact h

theorem foldl_guardedRemove_false {u v : String} :
    ∀ (L : List Pair) (g : Graph), g.hasEdge u v = false →
      (L.foldl (fun g p =>
        if g.hasEdge p.1 p.2 = true then g.remove_edge p.1 p.2 else g) g).hasEdge u v
        = false := by
  intro L
  induction L with
  | nil => intro g h; exact h
  | cons q L ih =>
    intro g h
    rw [List.foldl_cons]
    exact ih _ (guardedRemove_false h)

theorem foldl_guardedRemove_mem {p : Pair} :
    ∀ (L : List Pair) (g : Graph), p ∈ L →
      (L.foldl (fun g p =>
        if g.hasEdge p.1 p.2 = true then g.remove_edge p.1 p.2 else g) g).hasEdge p.1 p.2
        = false := by
  intro L
  induction L with
  | nil => intro g h; cases h
  | cons q L ih =>
    intro g hp
    rw [List.foldl_cons]
    rcases List.mem_cons.mp hp with rfl | hp
    · exact foldl_guardedRemove_false L _ (guardedRemove_self g p)
    · exact ih _ hp

theorem foldl_add_hasEdge_false {u v : String} :
    ∀ (P : List (Pair × Link)) (g : Graph), g.hasEdge u v = false →
      (∀ e ∈ P, pairEq e.1 (u, v) = false) →
      (P.foldl (fun g e => g.add_edge e.1.1 e.1.2) g).hasEdge u v = false := by
  intro P
  induction P with
  | nil => intro g h _; exact h
  | cons q P ih =>
    intro g h hP
    rw [List.foldl_cons]
    refine ih _ ?_ (fun e he => hP e (List.mem_cons_of_mem _ he))
    rw [hasEdge_add_of_ne (by rw [Prod.mk.eta]; exact hP q (List.mem_cons_self _ _))]
    exact h

/-! ## Store (`wormhole_links`) bookkeeping -/

theorem wlLookup_eq_none_iff {wl : List (Pair × Link)} {p : Pair} :
    wlLookup wl p = none ↔ ∀ e ∈ wl, pairEq e.1 p = false := by
  rw [wlLookup, Option.map_eq_none']
  constructor
  · intro h e he
    have := List.find?_eq_none.mp h e he
    exact Bool.eq_false_iff.mpr this
  · intro h
    exact List.find?_eq_none.mpr (fun e he => by rw [h e he]; exact Bool.false_ne_true)

theorem wlLookup_mem {wl : List (Pair × Link)} {p : Pair} {l : Link}
    (h : wlLookup wl p = some l) :
    ∃ e ∈ wl, pairEq e.1 p = true ∧ e.2 = l := by
  rw [wlLookup] at h
  obtain ⟨e, he, hl⟩ := Option.map_eq_some'.mp h
  refine ⟨e, List.mem_of_find?_eq_some he, ?_, hl⟩
  have := List.find?_some he
  simpa using this

theorem wlHasKey_iff {wl : List (Pair × Link)} {p : Pair} :
    wlHasKey wl p = true ↔ ∃ e ∈ wl, pairEq e.1 p = true := by
  rw [wlHasKey, List.any_eq_true]

theorem wlInsert_keys {wl : List (Pair × Link)} {q : Pair} {v : Link} :
    ∀ e ∈ wlInsert wl q v, (∃ e0 ∈ wl, e.1 = e0.1) ∨ e.1 = q := by
  intro e he
  rw [wlInsert] at he
  by_cases hk : wlHasKey wl q = true
  · rw [if_pos hk] at he
    obtain ⟨e0, he0, heq⟩ := List.mem_map.mp he
    by_cases hc : pairEq e0.1 q = true
    · rw [if_pos hc] at heq
      exact .inl ⟨e0, he0, by rw [← heq]⟩
    · rw [if_neg hc] at heq
      exact .inl ⟨e0, he0, by rw [← heq]⟩
  · rw [if_neg hk] at he
    rcases List.mem_append.mp he with he | he
    · exact .inl ⟨e, he, rfl⟩
    · rw [List.mem_singleton] at he
      exact .inr (by rw [he])

theorem find?_mapReplace {q p : Pair} {v : Link} (h : pairEq q p = false) :
    ∀ wl : List (Pair × Link),
      ((wl.map (fun e => if pairEq e.1 q then (e.1, v) else e)).find?
          (fun e => pairEq e.1 p)).map (·.2)
        = (wl.find? (fun e => pairEq e.1 p)).map (·.2) := by
  intro wl
  induction wl with
  | nil => rfl
  | cons e wl ih =>
    rw [List.map_cons]
    by_cases hc : pairEq e.1 q = true
    · rw [if_pos hc]
      have hep : pairEq e.1 p = false := by
        rw [Bool.eq_false_iff]
        intro hcontra
        have hqp : pairEq q p = true := pairEq_trans (pairEq_symm hc) hcontra
        rw [h] at hqp
        cases hqp
      simp only [List.find?, hep]
      exact ih
    · rw [if_neg hc]
      by_cases hp2 : pairEq e.1 p = true
      · simp only [List.find?, hp2]
      · simp only [List.find?, Bool.eq_false_iff.mpr hp2]
        exact ih

theorem find?_append_single {q : Pair} {v : Link} {p : Pair}
    (h : pairEq q p = false) :
    ∀ wl : List (Pair × Link),
      (wl ++ [(q, v)]).find? (fun e => pairEq e.1 p)
        = wl.find? (fun e => pairEq e.1 p) := by
  intro wl
  induction wl with
  | nil => simp only [List.nil_append, List.find?, h]
  | cons e wl ih =>
    rw [List.cons_append]
    by_cases hp2 : pairEq e.1 p = true
    · simp only [List.find?, hp2]
    · simp only [List.find?, Bool.eq_false_iff.mpr hp2]
      exact ih

theorem find?_append_single_found {p q : Pair} {v : Link} (h : pairEq q p = true) :
    ∀ wl : List (Pair × Link), (∀ e ∈ wl, ¬ pairEq e.1 p = true) →
      (wl ++ [(q, v)]).find? (fun e => pairEq e.1 p) = some (q, v) := by
  intro wl
  induction wl with
  | nil => intro _; simp only [List.nil_append, List.find?, h]
  | cons e wl ih =>
    intro hnone
    rw [List.cons_append]
    simp only [List.find?, Bool.eq_false_iff.mpr (hnone e (List.mem_cons_self _ _))]
    exact ih (fun x hx => hnone x (List.mem_cons_of_mem _ hx))

theorem wlInsert_lookup_of_ne {wl : List (Pair × Link)} {q : Pair} {v : Link}
    {p : Pair} (h : pairEq q p = false) :
    wlLookup (wlInsert wl q v) p = wlLookup wl p := by
  rw [wlInsert]
  by_cases hk : wlHasKey wl q = true
  · rw [if_pos hk, wlLookup, wlLookup]
    exact find?_mapReplace h wl
  · rw [if_neg hk, wlLookup, wlLookup, find?_append_single h wl]

theorem wlInsert_lookup_self {wl : List (Pair × Link)} {q : Pair} {v : Link}
    {p : Pair} (h : pairEq q p = true) :
    wlLookup (wlInsert wl q v) p = some v := by
  rw [wlInsert]
  by_cases hk : wlHasKey wl q = true
  · rw [if_pos hk, wlLookup]
    obtain ⟨e0, he0, he0q⟩ := wlHasKey_iff.mp hk
    clear hk
    induction wl with
    | nil => cases he0
    | cons e wl ih =>
      rw [List.map_cons]
      by_cases hc : pairEq e.1 q = true
      · rw [if_pos hc]
        have hep : pairEq e.1 p = true := pairEq_trans hc h
        simp only [List.find?, hep]
        rfl
      · rw [if_neg hc]
        have hep : pairEq e.1 p = false := by
          rw [Bool.eq_false_iff]
          intro hcontra
          exact (Bool.eq_false_iff.mp (Bool.eq_false_iff.mpr hc))
            (pairEq_trans hcontra (pairEq_symm h))
        simp only [List.find?, hep]
        rcases List.mem_cons.mp he0 with rfl | he0'
        · exact absurd he0q hc
        · exact ih he0'
  · rw [if_neg hk, wlLookup]
    have hnone : ∀ e ∈ wl, ¬ pairEq e.1 p = true := by
      intro e he hcontra
      exact hk (wlHasKey_iff.mpr ⟨e, he, pairEq_trans hcontra (pairEq_symm h)⟩)
    rw [find?_append_single_found h wl hnone]
    rfl

theorem wlWf_insert {wl : List (Pair × Link)} {q : Pair} {v : Link}
    (hwf : wlWf wl) : wlWf (wlInsert wl q v) := by
  rw [wlInsert]
  by_cases hk : wlHasKey wl q = true
  · rw [if_pos hk]
    rw [wlWf] at hwf ⊢
    refine (List.pairwise_map).mpr ?_
    refine hwf.imp_of_mem ?_
    intro e1 e2 _ _ h
    by_cases h1 : pairEq e1.1 q = true <;> by_cases h2 : pairEq e2.1 q = true <;>
      simp only [if_pos, if_neg, h1, h2] <;> simpa using h
  · rw [if_neg hk]
    rw [wlWf] at hwf ⊢
    rw [List.pairwise_append]
    refine ⟨hwf, List.pairwise_singleton _ _, ?_⟩
    intro e he x hx
    rw [List.mem_singleton] at hx
    subst hx
    rw [Bool.eq_false_iff]
    intro hcontra
    exact hk (wlHasKey_iff.mpr ⟨e, he, hcontra⟩)

theorem wlWf_filter {wl : List (Pair × Link)} (f : Pair × Link → Bool)
    (hwf : wlWf wl) : wlWf (wl.filter f) :=
  List.Pairwise.sublist (List.filter_sublist wl) hwf

/-- Any two store entries whose keys are the same frozenset are the same
entry (a dict cannot hold a key twice). -/
theorem wlWf_unique {wl : List (Pair × Link)} (hwf : wlWf wl)
    {e1 e2 : Pair × Link} (h1 : e1 ∈ wl) (h2 : e2 ∈ wl)
    (hkey : pairEq e1.1 e2.1 = true) : e1 = e2 := by
  by_contra hne
  have hsym : Symmetric (fun x y : Pair × Link => pairEq x.1 y.1 = false) := by
    intro x y hxy
    rw [Bool.eq_false_iff] at hxy ⊢
    intro hcontra
    exact hxy (pairEq_symm hcontra)
  have := List.Pairwise.forall hsym hwf h1 h2 hne
  rw [hkey] at this
  cases this

theorem foldl_wlInsert_lookup {p : Pair} :
    ∀ (P : List (Pair × Link)) (wl : List (Pair × Link)),
      (∀ e ∈ P, pairEq e.1 p = false) →
      wlLookup (P.foldl (fun wl e => wlInsert wl e.1 e.2) wl) p = wlLookup wl p := by
  intro P
  induction P with
  | nil => intro wl _; rfl
  | cons q P ih =>
    intro wl h
    rw [List.foldl_cons, ih _ (fun e he => h e (List.mem_cons_of_mem _ he)),
      wlInsert_lookup_of_ne (h q (List.mem_cons_self _ _))]

/-! ## `load_custom_wormholes` preserves the store facts C4 needs -/

theorem load_custom_wf :
    ∀ (fileLinks : List Link) (g : Graph) (wl : List (Pair × Link)) (now : ℤ),
      wlWf wl → wlWf (load_custom_wormholes g wl fileLinks now).2 := by
  intro fileLinks
  induction fileLinks with
  | nil => intro g wl now h; exact h
  | cons fl fileLinks ih =>
    intro g wl now h
    rw [load_custom_wormholes, List.foldl_cons]
    by_cases hc : custom_expired now fl = true
    · rw [if_pos hc]
      exact ih g wl now h
    · rw [if_neg hc]
      exact ih _ _ now (wlWf_insert h)

theorem load_custom_lookup_evescout {p : Pair} :
    ∀ (fileLinks : List Link) (g : Graph) (wl : List (Pair × Link)) (now : ℤ),
      (∃ l', wlLookup wl p = some l' ∧ l'.source = "evescout") →
      (∀ fl ∈ fileLinks, pairEq (fl.a, fl.b) p = true → fl.source = "evescout") →
      ∃ l', wlLookup (load_custom_wormholes g wl fileLinks now).2 p = some l' ∧
        l'.source = "evescout" := by
  intro fileLinks
  induction fileLinks with
  | nil => intro g wl now h _; exact h
  | cons fl fileLinks ih =>
    intro g wl now h hfile
    rw [load_custom_wormholes, List.foldl_cons]
    by_cases hc : custom_expired now fl = true
    · rw [if_pos hc]
      exact ih g wl now h (fun x hx => hfile x (List.mem_cons_of_mem _ hx))
    · rw [if_neg hc]
      refine ih (g.add_edge fl.a fl.b) (wlInsert wl (fl.a, fl.b) fl) now ?_
        (fun x hx => hfile x (List.mem_cons_of_mem _ hx))
      by_cases hp : pairEq (fl.a, fl.b) p = true
      · exact ⟨fl, wlInsert_lookup_self hp,
          hfile fl (List.mem_cons_self _ _) hp⟩
      · obtain ⟨l', hl', hsrc'⟩ := h
        exact ⟨l', by rw [wlInsert_lookup_of_ne (Bool.eq_false_iff.mpr hp)]; exact hl',
          hsrc'⟩

/-! # The claims -/

/-- C4: a `source=feed` (evescout) dynamic link that is present in the
store after a reconciliation round and whose unordered pair is absent
from the next round's feed snapshot is removed by that round from both
the store and the composite graph, even though its nominal expiry
timestamp (`t`) is still in the future.  `hfile` states what the file
written by the earlier round contains about the pair `p`: any record
for that pair is feed-sourced (in particular this holds when the file
is exactly the earlier round's persisted snapshot). -/
theorem C4_feed_staleness_removal
    (st : MapState) (feed2 : List FeedSig) (fileLinks : List Link) (now t : ℤ)
    (p : Pair) (l : Link)
    (hwf : wlWf st.wormhole_links)
    (hl : wlLookup st.wormhole_links p = some l)
    (hsrc : l.source = "evescout")
    (_hexp : l.expires_at = some t) (_hfut : now < t)
    (hfeed : ∀ sig ∈ feed2, ∀ a b, sig.in_system_name = some a →
      sig.out_system_name = some b → pairEq (a, b) p = false)
    (hfile : ∀ fl ∈ fileLinks, pairEq (fl.a, fl.b) p = true → fl.source = "evescout") :
    wlLookup (fetch_evescout_wormholes st feed2 fileLinks now).1.wormhole_links p = none ∧
    (fetch_evescout_wormholes st feed2 fileLinks now).1.gate_graph.hasEdge p.1 p.2
      = false := by
  obtain ⟨g1, wl1, hpair⟩ : ∃ g1 wl1,
      load_custom_wormholes st.gate_graph st.wormhole_links fileLinks now = (g1, wl1) :=
    ⟨_, _, rfl⟩
  have hwf1 : wlWf wl1 := by
    have := load_custom_wf fileLinks st.gate_graph st.wormhole_links now hwf
    rw [hpair] at this
    exact this
  obtain ⟨l1, hl1, hsrc1⟩ : ∃ l', wlLookup wl1 p = some l' ∧ l'.source = "evescout" := by
    have := load_custom_lookup_evescout fileLinks st.gate_graph st.wormhole_links now
      ⟨l, hl, hsrc⟩ hfile
    rw [hpair] at this
    exact this
  obtain ⟨ep, hep_mem, hep_key, hep_val⟩ := wlLookup_mem hl1
  have hNP : ∀ q ∈ (feed2.filterMap (fun sig =>
      match sig.in_system_name, sig.out_system_name with
      | some a, some b =>
        if a = "" ∨ b = "" then none
        else if sig.expires_at - now < 0 then none
        else some ((a, b), feed_link sig a b)
      | _, _ => none)), pairEq q.1 p = false := by
    intro q hq
    obtain ⟨sig, hsig, hf⟩ := List.mem_filterMap.mp hq
    cases hin : sig.in_system_name with
    | none => simp only [hin] at hf; cases hf
    | some a =>
      cases hout : sig.out_system_name with
      | none => simp only [hin, hout] at hf; cases hf
      | some b =>
        simp only [hin, hout] at hf
        by_cases h1 : a = "" ∨ b = ""
        · rw [if_pos h1] at hf; cases hf
        rw [if_neg h1] at hf
        by_cases h2 : sig.expires_at - now < 0
        · rw [if_pos h2] at hf; cases hf
        rw [if_neg h2] at hf
        obtain rfl : ((a, b), feed_link sig a b) = q := by injection hf
        exact hfeed sig hsig a b hin hout
  have hstale_mem : ep.1 ∈ ((wl1.filter (fun e => e.2.source == "evescout" &&
      !(((feed2.filterMap (fun sig =>
        match sig.in_system_name, sig.out_system_name with
        | some a, some b =>
          if a = "" ∨ b = "" then none
          else if sig.expires_at - now < 0 then none
          else some ((a, b), feed_link sig a b)
        | _, _ => none)).map (·.1)).any (fun q => pairEq q e.1)))).map (·.1)) := by
    refine List.mem_map.mpr ⟨ep, List.mem_filter.mpr ⟨hep_mem, ?_⟩, rfl⟩
    rw [Bool.and_eq_true]
    constructor
    · rw [beq_iff_eq, hep_val, hsrc1]
    · rw [Bool.not_eq_true', List.any_eq_false]
      intro q hq
      obtain ⟨x, hx, hxq⟩ := List.mem_map.mp hq
      intro hcontra
      have : pairEq q p = true := pairEq_trans hcontra hep_key
      rw [← hxq] at this
      rw [hNP x hx] at this
      cases this
  have hwl2_none : ∀ e ∈ (wl1.filter (fun e =>
      !(((wl1.filter (fun e2 => e2.2.source == "evescout" &&
        !(((feed2.filterMap (fun sig =>
          match sig.in_system_name, sig.out_system_name with
          | some a, some b =>
            if a = "" ∨ b = "" then none
            else if sig.expires_at - now < 0 then none
            else some ((a, b), feed_link sig a b)
          | _, _ => none)).map (·.1)).any (fun q => pairEq q e2.1)))).map (·.1)).any
        (fun q => pairEq q e.1)))), pairEq e.1 p = false := by
    intro e he
    obtain ⟨hewl, hecond⟩ := List.mem_filter.mp he
    rw [Bool.eq_false_iff]
    intro hcontra
    have heq : e = ep := wlWf_unique hwf1 hewl hep_mem
      (pairEq_trans hcontra (pairEq_symm hep_key))
    subst heq
    rw [Bool.not_eq_true'] at hecond
    rw [List.any_eq_false] at hecond
    exact hecond e.1 hstale_mem (by rw [pairEq_refl])
  constructor
  · -- removed from the store
    simp only [fetch_evescout_wormholes]
    rw [hpair]
    dsimp only
    rw [foldl_wlInsert_lookup _ _ hNP]
    rw [wlLookup_eq_none_iff]
    exact hwl2_none
  · -- removed from the composite graph
    simp only [fetch_evescout_wormholes]
    rw [hpair]
    dsimp only
    refine foldl_add_hasEdge_false _ _ ?_ ?_
    · have hbase := foldl_guardedRemove_mem _ g1 hstale_mem
      rw [hasEdge_congr hep_key] at hbase
      exact hbase
    · intro e he
      rw [Prod.mk.eta]
      exact hNP e he

/-- C4 witness: the general staleness theorem applied to a one-link
store (an evescout link A–B with a future expiry), an empty second-round
feed, and the file the earlier round persisted. -/
theorem C4_witness :
    (wlWf stC4.wormhole_links ∧
      wlLookup stC4.wormhole_links ("A", "B") = some evescoutLinkAB ∧
      evescoutLinkAB.source = "evescout" ∧
      evescoutLinkAB.expires_at = some 1000000 ∧ (100 : ℤ) < 1000000) ∧
    wlLookup (fetch_evescout_wormholes stC4 [] (savedLinks stC4)
      100).1.wormhole_links ("A", "B") = none ∧
    (fetch_evescout_wormholes stC4 [] (savedLinks stC4)
      100).1.gate_graph.hasEdge "A" "B" = false := by
  refine ⟨⟨?_, by decide, by decide, by decide, by decide⟩, ?_⟩
  · rw [wlWf]; exact List.pairwise_singleton _ _
  · refine C4_feed_staleness_removal stC4 [] (savedLinks stC4) 100 1000000
      ("A", "B") evescoutLinkAB ?_ (by decide) (by decide) (by decide) (by decide)
      (by intro sig hsig; cases hsig) (by decide)
    rw [wlWf]; exact List.pairwise_singleton _ _

/-- C2: in the gate chain A–B–C–D with A and D cyno-capable and within
the 6.0 ly titan range, the search with a budget of one teleport returns
the two-step path start→teleport(D) — cost pair (1, 1) — in preference
to the three-hop gate path A–B–C–D (cost (3, 0)), which is what the same
state yields when teleports are disabled. -/
theorem C2_teleport_beats_gate_path :
    build_route stC2 "A" "D" 6 1 "titan" =
      .path [⟨"start", "A", none⟩, ⟨"cyno", "D", none⟩] ∧
    build_route stC2 "A" "D" 6 1 "none" =
      .path [⟨"start", "A", none⟩, ⟨"gate", "B", none⟩, ⟨"gate", "C", none⟩,
        ⟨"gate", "D", none⟩] := by
  decide

/-- C3 (code bug): a local link asserted at T = 0 is still present at
T + 47h (as the claim says), but at T + 49h — after a feed
reconciliation whose `load_custom_wormholes` correctly *skips* the
expired record when re-reading the file — the link is still in the
in-memory store, still an edge of the composite graph, still traversable
by the route search, and is even re-persisted: nothing ever removes an
expired local link from the live state. -/
theorem C3_local_link_survives_expiry :
    wlLookup stC3.wormhole_links ("A", "B") = some linkC3 ∧
    wlLookup (fetch_evescout_wormholes stC3 [] (savedLinks stC3)
      (47 * 3600)).1.wormhole_links ("A", "B") = some linkC3 ∧
    wlLookup stC3at49.wormhole_links ("A", "B") = some linkC3 ∧
    stC3at49.gate_graph.hasEdge "A" "B" = true ∧
    linkC3 ∈ fileC3at49 ∧
    build_route stC3at49 "A" "B" 6 3 "none" =
      .path [⟨"start", "A", none⟩, ⟨"wormhole", "B", some linkC3⟩] := by
  decide

/-- C6 (code bug): A–B is a permanent edge loaded from the static
dataset; asserting a custom wormhole on the same pair and then
retracting it removes the shared edge outright, destroying the
permanent edge. -/
theorem C6_del_wh_destroys_permanent_edge :
    (load_sde_graph [rowA, rowB] [(1, 2)]).hasEdge "A" "B" = true ∧
    (add_wh stC6 (some "A") (some "B") (some "SIG-1") (some "SIG-2")
      (some true) 0).2.gate_graph.hasEdge "A" "B" = true ∧
    stC6'.gate_graph.hasEdge "A" "B" = false := by
  decide

/-- C7 counterexample: `del_wh("A", "SIG-2")` removes the custom link
whose A-side signature is SIG-1 — the given signature matches only the
*opposite* side (B's SIG-2), so under the claim's corresponding-side
rule nothing should have been removed. -/
theorem C7_counterexample_cross_side_removal :
    del_wh_matches_spec "A" "SIG-2" linkC7 = false ∧
    del_wh_matches_spec "B" "SIG-2" linkC7 = true ∧
    (del_wh stC7 (some "A") (some "SIG-2")).1 = .removed 1 ∧
    (del_wh stC7 (some "A") (some "SIG-2")).2.wormhole_links = [] := by
  decide

/-- C8 counterexample: "A" exists in the static dataset and is a node of
the composite graph with zero incident edges (its only edge was removed
again), yet the route query does not fail with the Disconnected-style
error record: `build_route` runs the search and returns `None`, which
the endpoint reports as the NotFound outcome "No path found". -/
theorem C8_counterexample_zero_edges_not_disconnected :
    "A" ∈ sdeNames stC8 ∧
    "A" ∈ stC8.gate_graph.nodes ∧
    stC8.gate_graph.neighbors "A" = [] ∧
    build_route stC8 "A" "B" 6 3 "none" = .noPath ∧
    (¬ ∃ msg, build_route stC8 "A" "B" 6 3 "none" = .error msg) ∧
    route stC8 ⟨some "A", some "B", some "none", none, some 3⟩ =
      .notFound "No path found" := by
  refine ⟨by decide, by decide, by decide, by decide, ?_, by decide⟩
  intro ⟨msg, hmsg⟩
  rw [show build_route stC8 "A" "B" 6 3 "none" = .noPath from by decide] at hmsg
  cases hmsg

/-- C7 (amended): `del_wh(system, sig)` removes exactly the
`source="custom"` links for which `system` matches either side AND `sig`
matches either side's signature metadata — the two tests are
independent, so a cross match (node on one side, signature on the
other) is also removed.  The matching edges are removed from the
composite graph; an empty match is the non-error "no match" response
with the state unchanged, otherwise the count of removed links is
reported.  (`hself` excludes degenerate self-pair keys, on which the
source's `a, b = tuple(edge)` unpacking would raise instead.) -/
theorem C7_del_wh_removes_either_side_matches
    (st : MapState) (system sig : String)
    (hwf : wlWf st.wormhole_links)
    (_hself : ∀ e ∈ st.wormhole_links, e.1.1 ≠ e.1.2)
    (hsys : system ≠ "") (hsig : sig ≠ "") :
    (del_wh st (some system) (some sig)).2.wormhole_links
      = st.wormhole_links.filter (fun e => !(del_wh_matches system sig e.2)) ∧
    (∀ e ∈ st.wormhole_links, del_wh_matches system sig e.2 = true →
      (del_wh st (some system) (some sig)).2.gate_graph.hasEdge e.1.1 e.1.2 = false) ∧
    (st.wormhole_links.filter (fun e => del_wh_matches system sig e.2) = [] →
      (del_wh st (some system) (some sig)).1
          = .noMatch "No matching custom wormhole found." ∧
        (del_wh st (some system) (some sig)).2 = st) ∧
    (st.wormhole_links.filter (fun e => del_wh_matches system sig e.2) ≠ [] →
      (del_wh st (some system) (some sig)).1 = .removed
        (st.wormhole_links.filter (fun e => del_wh_matches system sig e.2)).length) := by
  have hremove_eq : ∀ e ∈ st.wormhole_links,
      (((st.wormhole_links.filter (fun x => del_wh_matches system sig x.2)).map
        (·.1)).any (fun q => pairEq q e.1)) = del_wh_matches system sig e.2 := by
    intro e he
    by_cases hm : del_wh_matches system sig e.2 = true
    · rw [hm, List.any_eq_true]
      exact ⟨e.1, List.mem_map.mpr ⟨e, List.mem_filter.mpr ⟨he, hm⟩, rfl⟩,
        pairEq_refl e.1⟩
    · rw [Bool.eq_false_iff.mpr hm, List.any_eq_false]
      intro q hq hcontra
      obtain ⟨x, hx, hxq⟩ := List.mem_map.mp hq
      obtain ⟨hxwl, hxm⟩ := List.mem_filter.mp hx
      have hxe : x = e := wlWf_unique hwf hxwl he (by rw [hxq]; exact hcontra)
      rw [hxe] at hxm
      exact hm hxm
  simp only [del_wh, Option.getD_some]
  rw [if_neg (by push_neg; exact ⟨hsys, hsig⟩)]
  by_cases hnil : (st.wormhole_links.filter
      (fun x => del_wh_matches system sig x.2)).map (·.1) = []
  · rw [if_pos hnil]
    have hnil' : st.wormhole_links.filter (fun x => del_wh_matches system sig x.2)
        = [] := List.map_eq_nil_iff.mp hnil
    have hall : ∀ e ∈ st.wormhole_links, del_wh_matches system sig e.2 = false := by
      intro e he
      rw [List.filter_eq_nil_iff] at hnil'
      exact Bool.eq_false_iff.mpr (hnil' e he)
    refine ⟨?_, ?_, fun _ => ⟨rfl, rfl⟩, fun hne => absurd hnil' hne⟩
    · symm
      rw [List.filter_eq_self]
      intro e he
      rw [hall e he]
      rfl
    · intro e he hm
      rw [hall e he] at hm
      cases hm
  · rw [if_neg hnil]
    refine ⟨?_, ?_, ?_, ?_⟩
    · dsimp only
      refine List.filter_congr ?_
      intro e he
      rw [hremove_eq e he]
    · intro e he hm
      dsimp only
      refine foldl_guardedRemove_mem _ st.gate_graph ?_
      exact List.mem_map.mpr ⟨e, List.mem_filter.mpr ⟨he, hm⟩, rfl⟩
    · intro hcontra
      exact absurd (by rw [hcontra]; rfl) hnil
    · intro _
      dsimp only
      rw [List.length_map]

/-- C7 witness: the amended theorem applied, and a same-side match that
the retraction does remove (count 1, store emptied, edge gone). -/
theorem C7_witness :
    (wlWf stC7.wormhole_links ∧ (∀ e ∈ stC7.wormhole_links, e.1.1 ≠ e.1.2) ∧
      ("A" : String) ≠ "" ∧ ("SIG-1" : String) ≠ "") ∧
    (del_wh stC7 (some "A") (some "SIG-1")).2.wormhole_links
      = stC7.wormhole_links.filter (fun e => !(del_wh_matches "A" "SIG-1" e.2)) := by
  have h1 : wlWf stC7.wormhole_links := by
    rw [wlWf]; exact List.pairwise_singleton _ _
  have h2 : ∀ e ∈ stC7.wormhole_links, e.1.1 ≠ e.1.2 := by decide
  exact ⟨⟨h1, h2, by decide, by decide⟩,
    (C7_del_wh_removes_either_side_matches stC7 "A" "SIG-1" h1 h2 (by decide)
      (by decide)).1⟩

/-- C8 (amended): when the start or end system exists in the static
dataset but is not a node of the composite graph (it never appeared on
any edge), `build_route` returns the "System not found in gate graph"
error record — a human-readable message, never a path — independent of
the distance and budget parameters; the HTTP handler, however, then
crashes on that error record (`s["type"]` raises `KeyError`), an
out-of-taxonomy server error.  A node *present* in the graph with zero
remaining edges is not caught by this check (see the counterexample). -/
theorem C8_not_in_graph_is_error (st : MapState) (start endSys : String)
    (bridge_type : String) (rng : Option ℚ) (mcarg : Option ℤ)
    (hs : start ∈ sdeNames st) (he : endSys ∈ sdeNames st)
    (hs0 : start ≠ "") (he0 : endSys ≠ "")
    (hng : start ∉ st.gate_graph.nodes ∨ endSys ∉ st.gate_graph.nodes) :
    (∀ (max_ly : ℚ) (max_cynos : ℤ),
      build_route st start endSys max_ly max_cynos bridge_type =
        .error ("System not found in gate graph: " ++
          (if start ∉ st.gate_graph.nodes then start else endSys)) ∧
      ∀ steps, build_route st start endSys max_ly max_cynos bridge_type
        ≠ .path steps) ∧
    route st ⟨some start, some endSys, some bridge_type, rng, mcarg⟩
      = .serverError := by
  have hbr : ∀ (max_ly : ℚ) (max_cynos : ℤ),
      build_route st start endSys max_ly max_cynos bridge_type =
        .error ("System not found in gate graph: " ++
          (if start ∉ st.gate_graph.nodes then start else endSys)) := by
    intro max_ly max_cynos
    simp only [build_route]
    rw [if_neg (by push_neg; exact ⟨hs, he⟩), if_pos hng]
  refine ⟨fun ml mc => ⟨hbr ml mc, ?_⟩, ?_⟩
  · intro steps hcontra
    rw [hbr ml mc] at hcontra
    cases hcontra
  · simp only [route, Option.getD_some]
    rw [if_neg (by push_neg; exact ⟨hs0, he0⟩),
      if_neg (by push_neg; exact ⟨hs, he⟩), hbr]

/-- C8 witness: a state whose graph never saw "A" or "B": `build_route`
returns the error record and the endpoint turns it into a server
error. -/
theorem C8_witness :
    ("A" ∈ sdeNames stC8b ∧ "B" ∈ sdeNames stC8b ∧
      "A" ∉ stC8b.gate_graph.nodes) ∧
    build_route stC8b "A" "B" 6 3 "none"
      = .error "System not found in gate graph: A" ∧
    route stC8b ⟨some "A", some "B", some "none", none, none⟩ = .serverError := by
  have h := C8_not_in_graph_is_error stC8b "A" "B" "none" none none (by decide)
    (by decide) (by decide) (by decide) (Or.inl (by decide))
  refine ⟨⟨by decide, by decide, by decide⟩, ?_, h.2⟩
  rw [(h.1 6 3).1]
  decide

/-- C1: for any two systems of the static dataset that are connected in
the composite graph (permanent gates plus currently held dynamic
links), the search with `bridge_type="none"` returns a path containing
no teleport ("cyno") step, and its hop count (steps minus one) is the
shortest-path distance between the two systems over the composite
graph: it is the length of an actual walk, and no walk is shorter. -/
theorem C1_route_none_no_teleport_shortest
    (st : MapState) (start endSys : String) (max_ly : ℚ) (max_cynos : ℤ)
    (hs : start ∈ sdeNames st) (he : endSys ∈ sdeNames st)
    (hsg : start ∈ st.gate_graph.nodes) (heg : endSys ∈ st.gate_graph.nodes)
    (hconn : Reachable st.gate_graph start endSys) :
    ∃ steps, build_route st start endSys max_ly max_cynos "none" = .path steps ∧
      (∀ s ∈ steps, s.type ≠ "cyno") ∧
      IsWalkN st.gate_graph start endSys (steps.length - 1) ∧
      (∀ m, IsWalkN st.gate_graph start endSys m → steps.length - 1 ≤ m) := by
  obtain ⟨p, hp, hnc, hwalk, hmin⟩ := routeLoop_none_correct st start endSys max_ly
    max_cynos (routeFuel st.gate_graph [] start max_cynos.toNat) []
    [{ cost := 0, cynos_used := 0, current := start, path := [("start", start)] }]
    (loopInv_init _ _) (phi_init_lt _ _ _) (List.not_mem_nil _) hconn
  refine ⟨convertPath st.wormhole_links none p, ?_, ?_, ?_, ?_⟩
  · simp only [build_route]
    rw [if_neg (by push_neg; exact ⟨hs, he⟩), if_neg (by push_neg; exact ⟨hsg, heg⟩)]
    rw [show ((get_valid_cyno_candidates st "none").filter
        (fun s => decide (s ∈ sdeNames st) && decide (s ∈ st.gate_graph.nodes))).dedup
        = ([] : List String) from rfl]
    rw [hp]
  · exact convertPath_noCyno st.wormhole_links none p hnc
  · rw [convertPath_length]
    exact hwalk
  · intro m hw
    rw [convertPath_length]
    exact hmin m hw

/-- C1 witness: the gate chain A–B–C–D of `stC2`; A and D are connected
(a three-hop walk exists) and the theorem applies. -/
theorem C1_witness :
    ("A" ∈ sdeNames stC2 ∧ "D" ∈ sdeNames stC2 ∧ "A" ∈ stC2.gate_graph.nodes ∧
      "D" ∈ stC2.gate_graph.nodes ∧ Reachable stC2.gate_graph "A" "D") ∧
    (∃ steps, build_route stC2 "A" "D" 6 3 "none" = .path steps ∧
      (∀ s ∈ steps, s.type ≠ "cyno") ∧
      IsWalkN stC2.gate_graph "A" "D" (steps.length - 1) ∧
      (∀ m, IsWalkN stC2.gate_graph "A" "D" m → steps.length - 1 ≤ m)) := by
  have w1 : IsWalkN stC2.gate_graph "A" "B" 1 := .snoc (.nil "A") (by decide)
  have w2 : IsWalkN stC2.gate_graph "A" "C" 2 := .snoc w1 (by decide)
  have w3 : IsWalkN stC2.gate_graph "A" "D" 3 := .snoc w2 (by decide)
  have hreach : Reachable stC2.gate_graph "A" "D" := ⟨3, w3⟩
  exact ⟨⟨by decide, by decide, by decide, by decide, hreach⟩,
    C1_route_none_no_teleport_shortest stC2 "A" "D" 6 3 (by decide) (by decide)
      (by decide) (by decide) hreach⟩

/-- C5 counterexample: with the combined bridge type "titan,blops" and
no explicit range, the distance the route endpoint uses is not 8.0 (the
larger of titan's 6.0 and blops' 8.0). -/
theorem C5_counterexample_combined_policy_not_max :
    route_max_ly ⟨some "A", some "D", some "titan,blops", none, none⟩ ≠ 8 := by
  rw [route_max_ly]
  simp only [Option.getD_some]
  rw [if_neg (by decide), if_neg (by decide)]
  rw [Option.getD_none, DEFAULT_CYNO_RANGE]
  norm_num

/-- C5 (amended): "titan,blops" is not a recognised bridge type, so it
falls through to the generic branch — the distance used is the
caller-supplied range if present and otherwise `DEFAULT_CYNO_RANGE`
(6.0), never the maximum of the two named policies' constants. -/
theorem C5_combined_policy_uses_generic_range :
    route_max_ly ⟨some "A", some "D", some "titan,blops", none, none⟩ = 6 ∧
    (∀ r : ℚ, route_max_ly ⟨some "A", some "D", some "titan,blops", some r, none⟩ = r) ∧
    route_max_ly ⟨some "A", some "D", some "titan", none, none⟩ = 6 ∧
    route_max_ly ⟨some "A", some "D", some "blops", none, none⟩ = 8 := by
  refine ⟨?_, ?_, ?_, ?_⟩
  · rw [route_max_ly]
    simp only [Option.getD_some]
    rw [if_neg (by decide), if_neg (by decide), Option.getD_none, DEFAULT_CYNO_RANGE]
    norm_num
  · intro r
    rw [route_max_ly]
    simp only [Option.getD_some]
    rw [if_neg (by decide), if_neg (by decide)]
  · rw [route_max_ly]
    simp only [Option.getD_some]
    rw [if_pos trivial]
    norm_num
  · rw [route_max_ly]
    simp only [Option.getD_some]
    rw [if_neg (by decide), if_pos trivial]
    norm_num

/-- C9 counterexample: with no caller-supplied `max_cynos`, the teleport
budget the search runs with is not 3. -/
theorem C9_counterexample_default_not_three :
    route_max_cynos none ≠ 3 := by
  rw [route_max_cynos, ratTrunc, if_pos (by rw [DEFAULT_MAX_CYNOS]; norm_num),
    DEFAULT_MAX_CYNOS, show (6.0 : ℚ) = 6 from by norm_num]
  decide

/-- C9 (amended): the default teleport budget of the `/route` endpoint
is `int(DEFAULT_MAX_CYNOS) = int(6.0) = 6`; the "default 3" of the spec
is the Discord front end's own default, which that layer always passes
explicitly. -/
theorem C9_default_budget_is_six :
    route_max_cynos none = 6 ∧ (∀ n : ℤ, route_max_cynos (some n) = n) := by
  constructor
  · rw [route_max_cynos, ratTrunc, if_pos (by rw [DEFAULT_MAX_CYNOS]; norm_num),
      DEFAULT_MAX_CYNOS, show (6.0 : ℚ) = 6 from by norm_num]
    decide
  · intro n; rfl

/-- C10 helper: the `load_sde` fold never creates a Zarzakh edge. -/
theorem load_sde_no_zarzakh (systems : List SystemRow) :
    ∀ (jumps : List (ℕ × ℕ)) (g : Graph),
      (∀ u, g.hasEdge u "Zarzakh" = false ∧ g.hasEdge "Zarzakh" u = false) →
      ∀ u, (jumps.foldl (fun g jump =>
          match id_to_name systems jump.1, id_to_name systems jump.2 with
          | some a, some b =>
            if a ≠ "" ∧ b ≠ "" ∧ a ≠ "Zarzakh" ∧ b ≠ "Zarzakh" then g.add_edge a b
            else g
          | _, _ => g) g).hasEdge u "Zarzakh" = false ∧
        (jumps.foldl (fun g jump =>
          match id_to_name systems jump.1, id_to_name systems jump.2 with
          | some a, some b =>
            if a ≠ "" ∧ b ≠ "" ∧ a ≠ "Zarzakh" ∧ b ≠ "Zarzakh" then g.add_edge a b
            else g
          | _, _ => g) g).hasEdge "Zarzakh" u = false := by
  intro jumps
  induction jumps with
  | nil => intro g h u; exact h u
  | cons j js ih =>
    intro g h u
    rw [List.foldl_cons]
    refine ih _ ?_ u
    intro w
    cases hn1 : id_to_name systems j.1 with
    | none => simpa only [hn1] using h w
    | some a =>
      cases hn2 : id_to_name systems j.2 with
      | none => simpa only [hn1, hn2] using h w
      | some b =>
        simp only [hn1, hn2]
        by_cases hc : a ≠ "" ∧ b ≠ "" ∧ a ≠ "Zarzakh" ∧ b ≠ "Zarzakh"
        · rw [if_pos hc]
          obtain ⟨-, -, haZ, hbZ⟩ := hc
          have hpe : ∀ v : String, pairEq (a, b) (v, "Zarzakh") = false ∧
              pairEq (a, b) ("Zarzakh", v) = false := by
            intro v
            constructor <;>
              · rw [Bool.eq_false_iff]
                intro hcontra
                rw [pairEq_iff] at hcontra
                rcases hcontra with ⟨h1, h2⟩ | ⟨h1, h2⟩ <;> simp_all
          constructor
          · rw [hasEdge_add_of_ne (hpe w).1]; exact (h w).1
          · rw [hasEdge_add_of_ne (hpe w).2]; exact (h w).2
        · rw [if_neg hc]; exact h w

/-- C10 (implicit): `load_sde` skips every jump row with an endpoint
named "Zarzakh", so the composite graph's permanent edge set has no edge
into or out of Zarzakh, and consequently no path ever returned by
`build_route` traverses a permanent edge into or out of Zarzakh (any
Zarzakh step can only ride a dynamic link).  The spec nowhere states
this exclusion. -/
theorem C10_zarzakh_excluded (systems : List SystemRow) (jumps : List (ℕ × ℕ)) :
    (∀ u, (load_sde_graph systems jumps).hasEdge u "Zarzakh" = false ∧
      (load_sde_graph systems jumps).hasEdge "Zarzakh" u = false) ∧
    (∀ (st : MapState) (start endSys : String) (max_ly : ℚ) (max_cynos : ℤ)
        (bridge_type : String) (steps : List StepOut) (i : ℕ) (x y : String),
      build_route st start endSys max_ly max_cynos bridge_type = .path steps →
      (steps.map (·.system)).get? i = some x →
      (steps.map (·.system)).get? (i + 1) = some y →
      x = "Zarzakh" ∨ y = "Zarzakh" →
      (load_sde_graph systems jumps).hasEdge x y = false) := by
  have base : ∀ u, (load_sde_graph systems jumps).hasEdge u "Zarzakh" = false ∧
      (load_sde_graph systems jumps).hasEdge "Zarzakh" u = false := by
    intro u
    rw [load_sde_graph]
    refine load_sde_no_zarzakh systems jumps Graph.empty ?_ u
    intro w
    exact ⟨rfl, rfl⟩
  refine ⟨base, ?_⟩
  intro st start endSys max_ly max_cynos bridge_type steps i x y _ _ _ hxy
  rcases hxy with rfl | rfl
  · exact (base y).2
  · exact (base x).1

/-- C10 witness: a state with a dynamic link A–Zarzakh; the route search
returns a path stepping into Zarzakh (as a wormhole step), and the
permanent edge set built from a jump table that even lists the pair
(1, 5) = (A, Zarzakh) contains no Zarzakh edge. -/
theorem C10_witness :
    build_route stC10 "A" "Zarzakh" 6 3 "none" = .path stepsC10 ∧
    (stepsC10.map (·.system)).get? 0 = some "A" ∧
    (stepsC10.map (·.system)).get? 1 = some "Zarzakh" ∧
    (load_sde_graph [rowA, rowZarzakh] [(1, 5)]).hasEdge "A" "Zarzakh" = false :=
  ⟨by decide, by decide, by decide,
    (C10_zarzakh_excluded [rowA, rowZarzakh] [(1, 5)]).2 stC10 "A" "Zarzakh" 6 3
      "none" stepsC10 0 "A" "Zarzakh" (by decide) (by decide) (by decide)
      (Or.inr rfl)⟩

end Wormhole
